import Mathlib

/-!
Verification of the incremental pruning search of `mcf.cpp` (MetaContFn).

The definitions below are a shallow embedding of the program: the
`function` class (a table of `2^num_inputs` digits, each `< 2^num_outputs`,
treated as a mixed-radix counter), its `advance` operation, the three
property analyzers (`metastability_containing`, `input_relevance`,
`output_ordered`), and the driver loop `print_remaining`.  Machine
integers (`myint = unsigned int`) only ever hold values far below `2^32`
here, so they are modelled as `Nat`; bit operations on input patterns
(`x & pin2mask(p)`, `x & ~pin2mask(p)`) are modelled through `Nat.testBit`
and arithmetic equivalents.
-/

set_option maxRecDepth 100000

namespace MCF

/-- `MAX_BITS` from mcf.cpp. -/
def MAX_BITS : Nat := 20

/-- `pin2mask(pin)`: `1 << pin`. -/
def pin2mask (pin : Nat) : Nat := 2 ^ pin

/-- Boolean test of `x & pin2mask(p)` (bit `p` of `x`). -/
def testPin (x p : Nat) : Bool := x.testBit p

/-- `x & ~pin2mask(p)`: `x` with bit `p` cleared. -/
def clearPin (x p : Nat) : Nat := if x.testBit p then x - pin2mask p else x

/-- The pattern with pin `p` flipped (used by the spec-side definitions,
which speak of "inputs differing only in that pin"). -/
def flipPin (x p : Nat) : Nat := if x.testBit p then x - pin2mask p else x + pin2mask p

/-- `is_pot_or_zero(v)`: `(v & (v - 1)) == 0`. -/
def is_pot_or_zero (v : Nat) : Bool := v &&& (v - 1) == 0

/-- Loop of `__builtin_ctz`, with structural fuel (`fuel ≥ v` suffices since
the argument at least halves each step). -/
def ctzAux : Nat → Nat → Nat
  | 0, _ => 0
  | fuel + 1, v => if v = 0 then 0 else if v % 2 = 1 then 0 else ctzAux fuel (v / 2) + 1

/-- `__builtin_ctz`; totalized with `ctz 0 = 0` (the source never applies it
to 0). -/
def ctz (v : Nat) : Nat := ctzAux v v

/-- `struct bit_address`. -/
structure BitAddress where
  input_pattern : Nat
  bit : Nat
deriving DecidableEq

/-- `bit_address::assign_min`. -/
def BitAddress.assign_min (a other : BitAddress) : BitAddress :=
  if other.input_pattern < a.input_pattern then other
  else if other.input_pattern = a.input_pattern then ⟨a.input_pattern, min a.bit other.bit⟩
  else a

/-- `class function`. -/
structure Func where
  num_inputs : Nat
  num_outputs : Nat
  image : List Nat
deriving DecidableEq

def Func.end_input (f : Func) : Nat := pin2mask f.num_inputs

def Func.end_output (f : Func) : Nat := pin2mask f.num_outputs

/-- The `function` constructor; `none` models its `assert(num_inputs > 0)` /
`assert(num_outputs > 0)` aborting. -/
def mkFunc (num_inputs num_outputs : Nat) : Option Func :=
  if 0 < num_inputs ∧ 0 < num_outputs then
    some ⟨num_inputs, num_outputs, List.replicate (pin2mask num_inputs) 0⟩
  else none

/-- The member initialization of `function` (image all zeros). -/
def Func.init (n m : Nat) : Func := ⟨n, m, List.replicate (pin2mask n) 0⟩

/-- The carry loop of `function::advance`
(`for (i = at.input_pattern; i >= 1; --i)`): add `inc` at index `i`,
then propagate a carry of 1 toward index 1.  `none` models falling out of
the loop (full wrap-around). -/
def carryLoop (eo : Nat) : Nat → Nat → List Nat → List Nat × Option Nat
  | 0, _, img => (img, none)
  | i + 1, inc, img =>
    let v := img.getD (i + 1) 0 + inc
    if v < eo then (img.set (i + 1) v, some (i + 1))
    else carryLoop eo i 1 (img.set (i + 1) 0)

/-- The reset loop of `function::advance`: zero the digits at the less
significant places (indices `> place`). -/
def zeroAfter (img : List Nat) (place : Nat) : List Nat :=
  img.take (place + 1) ++ List.replicate (img.length - (place + 1)) 0

/-- `function::advance`: returns the updated function and the most significant
place that changed (`f.end_input` when the counter is exhausted). -/
def Func.advance (f : Func) (a : BitAddress) : Func × Nat :=
  match carryLoop f.end_output a.input_pattern (pin2mask a.bit)
      (zeroAfter f.image a.input_pattern) with
  | (img, some i) => (⟨f.num_inputs, f.num_outputs, img⟩, i)
  | (img, none) => (⟨f.num_inputs, f.num_outputs, img⟩, f.end_input)

/-! ### metastability_containing -/

/-- The output change a flip of `in_pin` causes at index `i`
(`output ^ f.image[i & ~pin2mask(in_pin)]`). -/
def mscChange (f : Func) (i in_pin : Nat) : Nat :=
  f.image.getD i 0 ^^^ f.image.getD (clearPin i in_pin) 0

/-- One step of the inner pin loop of `metastability_containing::analyze`:
skip a pin whose change is a power of two or zero, otherwise accumulate the
maximal `ctz(change) + 1`. -/
def mscStep (f : Func) (i : Nat) (acc in_pin : Nat) : Nat :=
  if is_pot_or_zero (mscChange f i in_pin) then acc
  else max acc (ctz (mscChange f i in_pin) + 1)

/-- `max_tz_plus_one` accumulated over the inner pin loop at index `i` (the
source iterates pins in descending order; `max` makes the order
irrelevant). -/
def mscMaxTz (f : Func) (i : Nat) : Nat :=
  (List.range f.num_inputs).foldl (mscStep f i) 0

/-- `metastability_containing::analyze`.  The satisfied sentinel
`bit_address(f)` is `⟨f.end_input, 0⟩`. -/
def mscAnalyze (f : Func) (first_changed : Nat) : BitAddress :=
  match (List.range' first_changed (f.end_input - first_changed)).find?
      (fun i => mscMaxTz f i != 0) with
  | some i => ⟨i, mscMaxTz f i - 1⟩
  | none => ⟨f.end_input, 0⟩

/-! ### input_relevance -/

/-- `relevant_inputs`: the source maintains this counter with the invariant
that it equals the number of non-sentinel entries of `first_relevant`. -/
def relCount (st : List Nat) (endIn : Nat) : Nat :=
  (st.filter (fun e => e != endIn)).length

/-- The state-unwind loop at the start of `input_relevance::analyze`
(invalidate every recorded index `>= first_changed`). -/
def irUnwind (st : List Nat) (endIn fc : Nat) : List Nat :=
  st.map (fun e => if e != endIn && fc ≤ e then endIn else e)

/-- The inner pin loop of `input_relevance::analyze` at index `i`, with
structural fuel (`fuel = f.num_inputs - in_pin` at entry); the Bool is true
when the analyzer returned satisfied from inside the loop. -/
def irPinsAux (f : Func) (i : Nat) : Nat → Nat → List Nat → List Nat × Bool
  | 0, _, st => (st, false)
  | fuel + 1, in_pin, st =>
    if in_pin < f.num_inputs then
      if st.getD in_pin 0 < i then irPinsAux f i fuel (in_pin + 1) st
      else if ! testPin i in_pin then irPinsAux f i fuel (in_pin + 1) st
      else if f.image.getD i 0 != f.image.getD (clearPin i in_pin) 0 then
        let st' := st.set in_pin i
        if relCount st' f.end_input = f.num_inputs then (st', true)
        else irPinsAux f i fuel (in_pin + 1) st'
      else irPinsAux f i fuel (in_pin + 1) st
    else (st, false)

/-- The inner pin loop of `input_relevance::analyze` at index `i`. -/
def irPins (f : Func) (i : Nat) (st : List Nat) : List Nat × Bool :=
  irPinsAux f i f.num_inputs 0 st

/-- The forward scan of `input_relevance::analyze`, with structural fuel
(`fuel = f.end_input - i` at entry). -/
def irScanAux (f : Func) : Nat → Nat → List Nat → List Nat × Bool
  | 0, _, st => (st, false)
  | fuel + 1, i, st =>
    if i < f.end_input then
      match irPins f i st with
      | (st', true) => (st', true)
      | (st', false) => irScanAux f fuel (i + 1) st'
    else (st, false)

/-- The forward scan of `input_relevance::analyze`. -/
def irScan (f : Func) (i : Nat) (st : List Nat) : List Nat × Bool :=
  irScanAux f (f.end_input - i) i st

/-- `input_relevance::analyze`: returns the updated private state and the
proposal. -/
def irAnalyze (f : Func) (st0 : List Nat) (first_changed : Nat) :
    List Nat × BitAddress :=
  let st := irUnwind st0 f.end_input first_changed
  if relCount st f.end_input = f.num_inputs then (st, ⟨f.end_input, 0⟩)
  else
    let r := irScan f first_changed st
    if r.2 then (r.1, ⟨f.end_input, 0⟩) else (r.1, ⟨f.end_input - 1, 0⟩)

/-! ### output_ordered -/

/-- `output_ordered::can_fit`. -/
def can_fit (ones runway : Nat) : Bool := ones ≤ (runway + 1) / 2

/-- The state-unwind loop of `output_ordered::analyze`.  `first_ones` is
stored most recent first, so the C++ `pop_back` while the back is
`>= first_changed` is dropping head elements. -/
def ooUnwind (fc : Nat) : List Nat → List Nat
  | [] => []
  | e :: rest => if fc ≤ e then ooUnwind fc rest else e :: rest

/-- The forward scan of `output_ordered::analyze`, with structural fuel
(`fuel = f.end_input - i` at entry).  The "naughty pin" test
`output & (pin2mask(out_pin) - 1)` is `output % 2^out_pin`.  `none` models
reaching the `assert(false)` fallthrough after the loop. -/
def ooScanAux (f : Func) : Nat → Nat → List Nat → List Nat × Option BitAddress
  | 0, _, st => (st, none)
  | fuel + 1, i, st =>
    if i < f.end_input then
      let output := f.image.getD i 0
      let out_pin := st.length
      if output % pin2mask out_pin != 0 then (st, some ⟨i, out_pin⟩)
      else if testPin output out_pin then
        let st' := i :: st
        if st'.length = f.num_outputs then (st', some ⟨f.end_input, 0⟩)
        else ooScanAux f fuel (i + 1) st'
      else if ! can_fit (f.num_outputs - st.length) (f.end_input - (i + 1)) then
        (st, some ⟨i, out_pin⟩)
      else ooScanAux f fuel (i + 1) st
    else (st, none)

/-- The forward scan of `output_ordered::analyze`. -/
def ooScan (f : Func) (i : Nat) (st : List Nat) : List Nat × Option BitAddress :=
  ooScanAux f (f.end_input - i) i st

/-- `output_ordered::analyze`: returns the updated private state and the
proposal; `none` models the `assert(false)` fallthrough. -/
def ooAnalyze (f : Func) (st0 : List Nat) (first_changed : Nat) :
    List Nat × Option BitAddress :=
  let st := ooUnwind first_changed st0
  if st.length = f.num_outputs then (st, some ⟨f.end_input, 0⟩)
  else ooScan f first_changed st

/-! ### The driver `print_remaining` -/

/-- One driver state: the function plus both stateful analyzers' private
state. -/
structure SearchState where
  f : Func
  ooSt : List Nat
  irSt : List Nat

/-- The loop body of `print_remaining`, with explicit fuel; returns the
emitted images in search order.  The analyzers are queried in the order
`p_ord`, `p_msc`, `p_ir` of `main`'s `properties` vector.  After
`assert(false)` the source's `output_ordered::analyze` returns
`bit_address(0, 0)`, hence the `getD ⟨0, 0⟩`. -/
def searchLoop : Nat → SearchState → Nat → List (List Nat)
  | 0, _, _ => []
  | fuel + 1, s, last_change =>
    let oo := ooAnalyze s.f s.ooSt last_change
    let pMsc := mscAnalyze s.f last_change
    let ir := irAnalyze s.f s.irSt last_change
    let next := (((⟨s.f.end_input, 0⟩ : BitAddress).assign_min
        (oo.2.getD ⟨0, 0⟩)).assign_min pMsc).assign_min ir.2
    if next.input_pattern = s.f.end_input then
      let fr := s.f.advance ⟨s.f.end_input - 1, 0⟩
      s.f.image ::
        (if fr.2 < s.f.end_input then searchLoop fuel ⟨fr.1, oo.1, ir.1⟩ fr.2 else [])
    else
      let fr := s.f.advance next
      if fr.2 < s.f.end_input then searchLoop fuel ⟨fr.1, oo.1, ir.1⟩ fr.2 else []

/-- `print_remaining`: the whole search, returning the emitted images in
order.  The initial analyzer states are those of the `input_relevance` and
`output_ordered` constructors. -/
def search (n m fuel : Nat) : List (List Nat) :=
  let f := Func.init n m
  if can_fit m f.end_input then
    searchLoop fuel ⟨f, [], List.replicate n f.end_input⟩ 0
  else []

/-- The search with enough fuel for any run: each loop iteration strictly
increases the mixed-radix value of the image (a number below
`(2^m)^(2^n)`), or exhausts the counter. -/
def searchAll (n m : Nat) : List (List Nat) :=
  search n m (pin2mask m ^ pin2mask n + 1)

/-- How many recorded first-ones lie at input patterns below `j`. -/
def countLt (st : List Nat) (j : Nat) : Nat :=
  (st.filter (fun e => decide (e < j))).length

/-- The driver loop again, now reporting whether every `output_ordered`
analysis along the run produced a proposal (false as soon as one run of the
scan reaches the `assert(false)` fallthrough). -/
def searchLoopOOsafe : Nat → SearchState → Nat → Bool
  | 0, _, _ => true
  | fuel + 1, s, last_change =>
    let oo := ooAnalyze s.f s.ooSt last_change
    let pMsc := mscAnalyze s.f last_change
    let ir := irAnalyze s.f s.irSt last_change
    let next := (((⟨s.f.end_input, 0⟩ : BitAddress).assign_min
        (oo.2.getD ⟨0, 0⟩)).assign_min pMsc).assign_min ir.2
    oo.2.isSome &&
      (if next.input_pattern = s.f.end_input then
        (if (s.f.advance ⟨s.f.end_input - 1, 0⟩).2 < s.f.end_input then
          searchLoopOOsafe fuel
            ⟨(s.f.advance ⟨s.f.end_input - 1, 0⟩).1, oo.1, ir.1⟩
            (s.f.advance ⟨s.f.end_input - 1, 0⟩).2
        else true)
      else
        (if (s.f.advance next).2 < s.f.end_input then
          searchLoopOOsafe fuel ⟨(s.f.advance next).1, oo.1, ir.1⟩
            (s.f.advance next).2
        else true))

/-- Whether the whole search (with the driver's static feasibility check in
front, exactly as in `print_remaining`) never reaches the `assert(false)`
of `output_ordered::analyze`. -/
def searchOOsafe (n m fuel : Nat) : Bool :=
  let f := Func.init n m
  if can_fit m f.end_input then
    searchLoopOOsafe fuel ⟨f, [], List.replicate n f.end_input⟩ 0
  else true

/-! ### Brute force, modelled from the spec -/

/-- Modelled from the spec: the `k`-th candidate table with `image[0]` fixed
to 0 and the remaining `2^n - 1` digits in `[0, 2^m)`, index 0 most
significant. -/
def decodeTable (n m k : Nat) : List Nat :=
  0 :: (List.range (pin2mask n - 1)).map
    (fun j => k / pin2mask m ^ (pin2mask n - 2 - j) % pin2mask m)

/-- Modelled from the spec: "for every input pattern and every input pin,
flipping that pin changes the output by at most one bit". -/
def specMsc (n : Nat) (img : List Nat) : Bool :=
  (List.range img.length).all fun x => (List.range n).all fun p =>
    is_pot_or_zero (img.getD x 0 ^^^ img.getD (flipPin x p) 0)

/-- Modelled from the spec: "every input pin must, for at least one pair of
inputs differing only in that pin, produce a different output". -/
def specIr (n : Nat) (img : List Nat) : Bool :=
  (List.range n).all fun p => (List.range img.length).any fun x =>
    img.getD x 0 != img.getD (flipPin x p) 0

/-- The first input pattern at which output pin `pin` is on. -/
def firstOne (img : List Nat) (pin : Nat) : Option Nat :=
  (List.range img.length).find? fun i => (img.getD i 0).testBit pin

/-- Modelled from the spec (§4.5): (a) no output pin is constant, (b) every
pair of output pins differs on some input, (c) output pins are ordered by
the reverse of the index at which each first turns on (pin `k`'s first
activation occurs no earlier than pin `k+1`'s). -/
def specOrdered (m : Nat) (img : List Nat) : Bool :=
  ((List.range m).all fun p => (List.range img.length).any fun x =>
      (img.getD x 0).testBit p != (img.getD 0 0).testBit p) &&
  ((List.range m).all fun a => (List.range m).all fun b =>
      b ≤ a || (List.range img.length).any fun x =>
        (img.getD x 0).testBit a != (img.getD x 0).testBit b) &&
  ((List.range (m - 1)).all fun k =>
      match firstOne img k, firstOne img (k + 1) with
      | some a, some b => b ≤ a
      | _, _ => false)

/-- Modelled from the spec: brute-force enumeration checking every one of the
`(2^m)^(2^n - 1)` candidate tables (with `image[0]` fixed to 0) against the
three properties from scratch. -/
def bruteForceSpec (n m : Nat) : List (List Nat) :=
  (List.range (pin2mask m ^ (pin2mask n - 1))).filterMap fun k =>
    let img := decodeTable n m k
    if specMsc n img && specIr n img && specOrdered m img then some img else none

/-! ### The image as a mixed-radix number, and the argument handling -/

/-- The image read as a mixed-radix number: index 0 is the most significant
digit, each digit weighted by a power of `eo`. -/
def mval (eo : Nat) : List Nat → Nat
  | [] => 0
  | d :: t => d * eo ^ t.length + mval eo t

/-- The two exception kinds of the argument handling in `main`:
`std::invalid_argument` (thrown by `std::stoul` on a non-numeric token) and
`std::out_of_range` (thrown by `parse_arg` for values above `MAX_BITS`). -/
inductive ArgError where
  | invalid_argument
  | out_of_range
deriving DecidableEq

/-- `parse_arg`, given that `std::stoul` succeeded with value `raw_val`. -/
def parse_arg (raw_val : Nat) : Except ArgError Nat :=
  if raw_val > MAX_BITS then Except.error ArgError.out_of_range
  else Except.ok raw_val

/-- The argument handling of `main` for one positional argument: a
non-numeric token makes `std::stoul` throw `std::invalid_argument`
(modelled as `none`); otherwise `parse_arg` checks the range. -/
def parse_main_arg (tok : Option Nat) : Except ArgError Nat :=
  match tok with
  | none => Except.error ArgError.invalid_argument
  | some v => parse_arg v

/-! ### Lemmas about the bit helpers -/

lemma pin2mask_pos (p : Nat) : 0 < pin2mask p := Nat.two_pow_pos p

lemma two_pow_add_sub_of_testBit {x p : Nat} (h : x.testBit p = true) :
    2 ^ p + (x - 2 ^ p) = x := by
  have := Nat.testBit_implies_ge h
  omega

lemma testBit_sub_two_pow_self {x p : Nat} (h : x.testBit p = true) :
    (x - 2 ^ p).testBit p = false := by
  have h2 := Nat.testBit_two_pow_add_eq (x - 2 ^ p) p
  rw [two_pow_add_sub_of_testBit h, h] at h2
  cases h3 : (x - 2 ^ p).testBit p
  · rfl
  · rw [h3] at h2
    simp at h2

lemma testBit_add_two_pow_self {x p : Nat} (h : x.testBit p = false) :
    (x + 2 ^ p).testBit p = true := by
  have h2 := Nat.testBit_two_pow_add_eq x p
  rw [h] at h2
  rw [Nat.add_comm]
  simpa using h2

lemma mod_two_pow_succ_of_testBit_false {x p : Nat} (h : x.testBit p = false) :
    x % 2 ^ (p + 1) = x % 2 ^ p := by
  have hd : x / 2 ^ p % 2 = 0 := by
    have h2 := @Nat.testBit_to_div_mod p x
    rw [h] at h2
    have h3 : ¬(x / 2 ^ p % 2 = 1) := by
      intro hc
      rw [hc] at h2
      simp at h2
    omega
  have h4 := @Nat.mod_pow_succ x 2 p
  rw [hd] at h4
  simpa using h4

lemma add_two_pow_lt_two_pow {x n p : Nat} (hx : x < 2 ^ n) (hp : p < n)
    (h : x.testBit p = false) : x + 2 ^ p < 2 ^ n := by
  obtain ⟨q, rfl⟩ : ∃ q, n = (p + 1) + q := ⟨n - (p + 1), by omega⟩
  rw [pow_add] at hx ⊢
  have hmod : x % 2 ^ (p + 1) < 2 ^ p := by
    rw [mod_two_pow_succ_of_testBit_false h]
    exact Nat.mod_lt x (Nat.two_pow_pos p)
  have hdm := Nat.div_add_mod x (2 ^ (p + 1))
  have hq2 : x / 2 ^ (p + 1) < 2 ^ q := by
    by_contra hc
    push_neg at hc
    have h5 : 2 ^ (p + 1) * 2 ^ q ≤ 2 ^ (p + 1) * (x / 2 ^ (p + 1)) :=
      Nat.mul_le_mul_left _ hc
    have h6 := Nat.mul_div_le x (2 ^ (p + 1))
    omega
  have h8 : 2 ^ (p + 1) * (x / 2 ^ (p + 1) + 1) ≤ 2 ^ (p + 1) * 2 ^ q :=
    Nat.mul_le_mul_left _ hq2
  have h9 : 2 ^ (p + 1) = 2 ^ p * 2 := pow_succ 2 p
  calc x + 2 ^ p
      = 2 ^ (p + 1) * (x / 2 ^ (p + 1)) + x % 2 ^ (p + 1) + 2 ^ p := by omega
    _ < 2 ^ (p + 1) * (x / 2 ^ (p + 1)) + 2 ^ (p + 1) := by omega
    _ = 2 ^ (p + 1) * (x / 2 ^ (p + 1) + 1) := by ring
    _ ≤ 2 ^ (p + 1) * 2 ^ q := h8

lemma flipPin_lt {x n p : Nat} (hx : x < 2 ^ n) (hp : p < n) : flipPin x p < 2 ^ n := by
  unfold flipPin pin2mask
  cases h : x.testBit p
  · simp only [Bool.false_eq_true, if_false]
    exact add_two_pow_lt_two_pow hx hp h
  · simp only [if_true]
    have h2 : x - 2 ^ p ≤ x := Nat.sub_le x (2 ^ p)
    omega

lemma flipPin_of_false {x p : Nat} (h : x.testBit p = false) :
    flipPin x p = x + 2 ^ p := by
  simp [flipPin, h, pin2mask]

lemma flipPin_of_true {x p : Nat} (h : x.testBit p = true) :
    flipPin x p = x - 2 ^ p := by
  simp [flipPin, h, pin2mask]

lemma clearPin_of_false {x p : Nat} (h : x.testBit p = false) : clearPin x p = x := by
  simp [clearPin, h]

lemma clearPin_of_true {x p : Nat} (h : x.testBit p = true) :
    clearPin x p = x - 2 ^ p := by
  simp [clearPin, h, pin2mask]

/-! ### Lemmas about list access -/

lemma getD_set_self {l : List Nat} {k : Nat} (h : k < l.length) (v : Nat) :
    (l.set k v).getD k 0 = v := by
  rw [List.getD_eq_getElem?_getD, List.getElem?_set, if_pos rfl, if_pos h]
  rfl

lemma getD_set_ne {l : List Nat} {k j : Nat} (h : k ≠ j) (v : Nat) :
    (l.set k v).getD j 0 = l.getD j 0 := by
  rw [List.getD_eq_getElem?_getD, List.getElem?_set_ne h, ← List.getD_eq_getElem?_getD]

lemma getD_replicate_zero (n j : Nat) : (List.replicate n (0 : Nat)).getD j 0 = 0 := by
  rw [List.getD_eq_getElem?_getD, List.getElem?_replicate]
  split <;> rfl

/-! ### The `zeroAfter` reset loop -/

lemma zeroAfter_length (img : List Nat) (p : Nat) :
    (zeroAfter img p).length = img.length := by
  simp [zeroAfter]
  omega

lemma zeroAfter_getD_le {img : List Nat} {p j : Nat} (h : j ≤ p) :
    (zeroAfter img p).getD j 0 = img.getD j 0 := by
  rw [List.getD_eq_getElem?_getD, List.getD_eq_getElem?_getD, zeroAfter,
    List.getElem?_append]
  by_cases hj : j < (img.take (p + 1)).length
  · rw [if_pos hj, List.getElem?_take]
    rw [List.length_take] at hj
    rw [if_pos (by omega)]
  · rw [if_neg hj, List.getElem?_replicate]
    rw [List.length_take] at hj
    have hjl : img.length ≤ j := by omega
    rw [if_neg (by omega), List.getElem?_eq_none hjl]

lemma zeroAfter_getD_gt {img : List Nat} {p j : Nat} (h : p < j) :
    (zeroAfter img p).getD j 0 = 0 := by
  rw [List.getD_eq_getElem?_getD, zeroAfter, List.getElem?_append]
  by_cases hj : j < (img.take (p + 1)).length
  · rw [List.length_take] at hj
    omega
  · rw [if_neg hj, List.getElem?_replicate]
    split <;> rfl

/-! ### The carry loop of `advance` -/

lemma carryLoop_succ_def (eo i inc : Nat) (img : List Nat) :
    carryLoop eo (i + 1) inc img =
      if img.getD (i + 1) 0 + inc < eo then
        (img.set (i + 1) (img.getD (i + 1) 0 + inc), some (i + 1))
      else carryLoop eo i 1 (img.set (i + 1) 0) := rfl

lemma carryLoop_getD_zero (eo : Nat) :
    ∀ (i inc : Nat) (img : List Nat),
      (carryLoop eo i inc img).1.getD 0 0 = img.getD 0 0 := by
  intro i
  induction i with
  | zero => intro inc img; rfl
  | succ i ih =>
    intro inc img
    rw [carryLoop_succ_def]
    split
    · exact getD_set_ne (by omega) _
    · rw [ih]
      exact getD_set_ne (by omega) _

/-- Full characterization of the carry loop: either it stops at a place
`k ∈ [1, i]` whose incremented digit is below `eo` (all digits in `(k, i]`
having overflowed and been zeroed), or every digit in `[1, i]` overflows and
the loop falls out (full wrap-around). -/
lemma carryLoop_cases (eo : Nat) :
    ∀ (i inc : Nat) (img : List Nat), i < img.length →
    (∃ k img', carryLoop eo i inc img = (img', some k) ∧ 1 ≤ k ∧ k ≤ i ∧
        img.getD k 0 + (if k = i then inc else 1) < eo ∧
        (∀ j, k < j → j ≤ i → eo ≤ img.getD j 0 + (if j = i then inc else 1)) ∧
        (∀ j, j < k ∨ i < j → img'.getD j 0 = img.getD j 0) ∧
        (∀ j, k < j → j ≤ i → img'.getD j 0 = 0) ∧
        img'.getD k 0 = img.getD k 0 + (if k = i then inc else 1) ∧
        img'.length = img.length)
    ∨ (∃ img', carryLoop eo i inc img = (img', none) ∧
        (∀ j, 1 ≤ j → j ≤ i → eo ≤ img.getD j 0 + (if j = i then inc else 1)) ∧
        (∀ j, j = 0 ∨ i < j → img'.getD j 0 = img.getD j 0) ∧
        (∀ j, 1 ≤ j → j ≤ i → img'.getD j 0 = 0) ∧
        img'.length = img.length) := by
  intro i
  induction i with
  | zero =>
    intro inc img _
    right
    exact ⟨img, rfl, fun j h1 h2 => by omega, fun j _ => rfl, fun j h1 h2 => by omega, rfl⟩
  | succ i ih =>
    intro inc img hlen
    by_cases hv : img.getD (i + 1) 0 + inc < eo
    · left
      refine ⟨i + 1, img.set (i + 1) (img.getD (i + 1) 0 + inc),
        by rw [carryLoop_succ_def, if_pos hv], by omega,
        le_refl _, by simpa using hv, fun j h1 h2 => by omega, ?_, fun j h1 h2 => by omega,
        ?_, List.length_set img _ _⟩
      · intro j hj
        exact getD_set_ne (by omega) _
      · simpa using getD_set_self hlen (img.getD (i + 1) 0 + inc)
    · have hlen' : i < (img.set (i + 1) 0).length := by
        rw [List.length_set]; omega
      have hne : ∀ j, j ≤ i → (img.set (i + 1) 0).getD j 0 = img.getD j 0 :=
        fun j hj => getD_set_ne (by omega) _
      have hset : (img.set (i + 1) 0).getD (i + 1) 0 = 0 := getD_set_self hlen 0
      have hover : ∀ j, j > i + 1 → (img.set (i + 1) 0).getD j 0 = img.getD j 0 :=
        fun j hj => getD_set_ne (by omega) _
      rcases ih 1 (img.set (i + 1) 0) hlen' with
        ⟨k, img', heq, hk1, hki, hkbound, hwrap, hunch, hzero, hkval, hlen2⟩ |
        ⟨img', heq, hwrap, hunch, hzero, hlen2⟩
      · left
        simp only [ite_self] at hkbound hwrap hkval
        refine ⟨k, img', by rw [carryLoop_succ_def, if_neg hv]; exact heq, hk1, by omega, ?_, ?_, ?_, ?_, ?_, ?_⟩
        · rw [if_neg (by omega)]
          rw [hne k hki] at hkbound
          omega
        · intro j hj1 hj2
          rcases Nat.lt_or_ge j (i + 1) with hj | hj
          · have := hwrap j hj1 (by omega)
            rw [hne j (by omega)] at this
            rw [if_neg (by omega)]
            omega
          · have hji : j = i + 1 := by omega
            rw [hji, if_pos rfl]
            omega
        · intro j hj
          rcases hj with hj | hj
          · rw [hunch j (Or.inl hj), hne j (by omega)]
          · rw [hunch j (Or.inr (by omega)), hover j (by omega)]
        · intro j hj1 hj2
          rcases Nat.lt_or_ge j (i + 1) with hj | hj
          · exact hzero j hj1 (by omega)
          · have hji : j = i + 1 := by omega
            rw [hji, hunch (i + 1) (Or.inr (by omega)), hset]
        · rw [hkval, if_neg (show ¬k = i + 1 by omega), hne k hki]
        · rw [hlen2, List.length_set]
      · right
        simp only [ite_self] at hwrap
        refine ⟨img', by rw [carryLoop_succ_def, if_neg hv]; exact heq, ?_, ?_, ?_, ?_⟩
        · intro j hj1 hj2
          rcases Nat.lt_or_ge j (i + 1) with hj | hj
          · have := hwrap j hj1 (by omega)
            rw [hne j (by omega)] at this
            rw [if_neg (by omega)]
            omega
          · have hji : j = i + 1 := by omega
            rw [hji, if_pos rfl]
            omega
        · intro j hj
          rcases hj with hj | hj
          · rw [hunch j (Or.inl hj), hj]
            exact (hne 0 (by omega)).trans rfl
          · rw [hunch j (Or.inr (by omega)), hover j (by omega)]
        · intro j hj1 hj2
          rcases Nat.lt_or_ge j (i + 1) with hj | hj
          · exact hzero j hj1 (by omega)
          · have hji : j = i + 1 := by omega
            rw [hji, hunch (i + 1) (Or.inr (by omega)), hset]
        · rw [hlen2, List.length_set]

/-! ### Characterization of `advance` -/

lemma carryLoop_length (eo : Nat) :
    ∀ (i inc : Nat) (img : List Nat), (carryLoop eo i inc img).1.length = img.length := by
  intro i
  induction i with
  | zero => intro inc img; rfl
  | succ i ih =>
    intro inc img
    rw [carryLoop_succ_def]
    split
    · exact List.length_set img _ _
    · rw [ih, List.length_set]

lemma advance_fst_image (f : Func) (a : BitAddress) :
    (f.advance a).1.image =
      (carryLoop f.end_output a.input_pattern (pin2mask a.bit)
        (zeroAfter f.image a.input_pattern)).1 := by
  unfold Func.advance
  rcases carryLoop f.end_output a.input_pattern (pin2mask a.bit)
      (zeroAfter f.image a.input_pattern) with ⟨img, _ | i⟩ <;> rfl

lemma advance_widths (f : Func) (a : BitAddress) :
    (f.advance a).1.num_inputs = f.num_inputs ∧
      (f.advance a).1.num_outputs = f.num_outputs := by
  unfold Func.advance
  rcases carryLoop f.end_output a.input_pattern (pin2mask a.bit)
      (zeroAfter f.image a.input_pattern) with ⟨img, _ | i⟩ <;> exact ⟨rfl, rfl⟩

lemma advance_snd (f : Func) (a : BitAddress) :
    (f.advance a).2 =
      ((carryLoop f.end_output a.input_pattern (pin2mask a.bit)
        (zeroAfter f.image a.input_pattern)).2).getD f.end_input := by
  unfold Func.advance
  rcases carryLoop f.end_output a.input_pattern (pin2mask a.bit)
      (zeroAfter f.image a.input_pattern) with ⟨img, _ | i⟩ <;> rfl

lemma advance_image_length (f : Func) (a : BitAddress) :
    (f.advance a).1.image.length = f.image.length := by
  rw [advance_fst_image, carryLoop_length, zeroAfter_length]

lemma advance_getD_zero (f : Func) (a : BitAddress) :
    (f.advance a).1.image.getD 0 0 = f.image.getD 0 0 := by
  rw [advance_fst_image, carryLoop_getD_zero]
  exact zeroAfter_getD_le (Nat.zero_le _)

/-! ### The image as a mixed-radix number -/

lemma mval_lt_pow (eo : Nat) :
    ∀ l : List Nat, (∀ d ∈ l, d < eo) → mval eo l < eo ^ l.length := by
  intro l
  induction l with
  | nil => intro _; simp [mval]
  | cons d t ih =>
    intro h
    have hd : d < eo := h d (List.mem_cons_self _ _)
    have ht := ih (fun x hx => h x (List.mem_cons_of_mem _ hx))
    have hmul : (d + 1) * eo ^ t.length ≤ eo * eo ^ t.length :=
      Nat.mul_le_mul_right _ hd
    calc mval eo (d :: t) = d * eo ^ t.length + mval eo t := rfl
      _ < d * eo ^ t.length + eo ^ t.length := by omega
      _ = (d + 1) * eo ^ t.length := by ring
      _ ≤ eo * eo ^ t.length := hmul
      _ = eo ^ (d :: t).length := by rw [List.length_cons, pow_succ]; ring

/-- Lexicographic comparison of equal-length digit lists: equal before `k`,
strictly smaller at `k`, digits of the smaller list bounded by `eo`. -/
lemma mval_lt_mval (eo : Nat) :
    ∀ (k : Nat) (a b : List Nat), a.length = b.length → k < a.length →
      (∀ j, j < k → a.getD j 0 = b.getD j 0) →
      a.getD k 0 < b.getD k 0 →
      (∀ d ∈ a, d < eo) →
      mval eo a < mval eo b := by
  intro k
  induction k with
  | zero =>
    intro a b hlen hk hpre hk2 hbound
    match a, b with
    | [], _ => simp at hk
    | x :: t, [] => simp at hlen
    | x :: t, y :: u =>
      have hxy : x < y := by simpa using hk2
      have htu : t.length = u.length := by simpa using hlen
      have ht := mval_lt_pow eo t (fun d hd => hbound d (List.mem_cons_of_mem _ hd))
      have hmul : (x + 1) * eo ^ t.length ≤ y * eo ^ t.length :=
        Nat.mul_le_mul_right _ hxy
      calc mval eo (x :: t) = x * eo ^ t.length + mval eo t := rfl
        _ < x * eo ^ t.length + eo ^ t.length := by omega
        _ = (x + 1) * eo ^ t.length := by ring
        _ ≤ y * eo ^ t.length := hmul
        _ = y * eo ^ u.length := by rw [htu]
        _ ≤ y * eo ^ u.length + mval eo u := Nat.le_add_right _ _
        _ = mval eo (y :: u) := rfl
  | succ k ih =>
    intro a b hlen hk hpre hk2 hbound
    match a, b with
    | [], _ => simp at hk
    | x :: t, [] => simp at hlen
    | x :: t, y :: u =>
      have hxy : x = y := by simpa using hpre 0 (Nat.succ_pos k)
      have htu : t.length = u.length := by simpa using hlen
      have hrec : mval eo t < mval eo u := by
        refine ih t u htu (by simpa using hk) ?_ (by simpa using hk2)
          (fun d hd => hbound d (List.mem_cons_of_mem _ hd))
        intro j hj
        simpa using hpre (j + 1) (by omega)
      calc mval eo (x :: t) = x * eo ^ t.length + mval eo t := rfl
        _ < x * eo ^ t.length + mval eo u := by omega
        _ = y * eo ^ u.length + mval eo u := by rw [hxy, htu]
        _ = mval eo (y :: u) := rfl

/-! ### Invariants of the driver loop -/

lemma searchLoop_getD_zero :
    ∀ (fuel : Nat) (s : SearchState) (lc : Nat), s.f.image.getD 0 0 = 0 →
      ∀ img ∈ searchLoop fuel s lc, img.getD 0 0 = 0 := by
  intro fuel
  induction fuel with
  | zero =>
    intro s lc h img hmem
    simp [searchLoop] at hmem
  | succ fuel ih =>
    intro s lc h img hmem
    simp only [searchLoop] at hmem
    split at hmem
    · rcases List.mem_cons.mp hmem with hmem | hmem
      · rw [hmem]; exact h
      · split at hmem
        · exact ih _ _ (by rw [advance_getD_zero]; exact h) img hmem
        · simp at hmem
    · split at hmem
      · exact ih _ _ (by rw [advance_getD_zero]; exact h) img hmem
      · simp at hmem

/-! ### Lemmas about `metastability_containing` -/

lemma mscStep_init_le (f : Func) (i : Nat) :
    ∀ (l : List Nat) (acc : Nat), acc ≤ l.foldl (mscStep f i) acc := by
  intro l
  induction l with
  | nil => intro acc; exact le_refl acc
  | cons q t ih =>
    intro acc
    refine le_trans ?_ (ih (mscStep f i acc q))
    unfold mscStep
    split
    · exact le_refl acc
    · exact le_max_left _ _

lemma mscStep_mem_le (f : Func) (i : Nat) :
    ∀ (l : List Nat) (acc p : Nat), p ∈ l →
      is_pot_or_zero (mscChange f i p) = false →
      ctz (mscChange f i p) + 1 ≤ l.foldl (mscStep f i) acc := by
  intro l
  induction l with
  | nil => intro acc p hp; simp at hp
  | cons q t ih =>
    intro acc p hp hpot
    rcases List.mem_cons.mp hp with rfl | hp
    · refine le_trans ?_ (mscStep_init_le f i t (mscStep f i acc p))
      unfold mscStep
      rw [hpot]
      simp
    · exact ih (mscStep f i acc q) p hp hpot

lemma mscStep_fold_cases (f : Func) (i : Nat) :
    ∀ (l : List Nat) (acc : Nat), l.foldl (mscStep f i) acc = acc ∨
      ∃ p ∈ l, is_pot_or_zero (mscChange f i p) = false ∧
        l.foldl (mscStep f i) acc = ctz (mscChange f i p) + 1 := by
  intro l
  induction l with
  | nil => intro acc; left; rfl
  | cons q t ih =>
    intro acc
    have hfold : (q :: t).foldl (mscStep f i) acc = t.foldl (mscStep f i) (mscStep f i acc q) := rfl
    rcases ih (mscStep f i acc q) with h | ⟨p, hp, hpot, h⟩
    · rw [hfold, h]
      unfold mscStep
      by_cases hq : is_pot_or_zero (mscChange f i q) = true
      · rw [if_pos hq]; left; rfl
      · rw [if_neg hq]
        rcases Nat.le_total (ctz (mscChange f i q) + 1) acc with hle | hle
        · left; exact Nat.max_eq_left hle
        · right
          exact ⟨q, List.mem_cons_self _ _, Bool.eq_false_iff.mpr hq ▸ rfl,
            Nat.max_eq_right hle⟩
    · rw [hfold, h]
      right
      exact ⟨p, List.mem_cons_of_mem _ hp, hpot, rfl⟩

lemma mscMaxTz_eq_zero_iff (f : Func) (i : Nat) :
    mscMaxTz f i = 0 ↔
      ∀ p, p < f.num_inputs → is_pot_or_zero (mscChange f i p) = true := by
  constructor
  · intro h p hp
    by_contra hc
    have hc' : is_pot_or_zero (mscChange f i p) = false := Bool.eq_false_iff.mpr hc
    have := mscStep_mem_le f i (List.range f.num_inputs) 0 p
      (List.mem_range.mpr hp) hc'
    rw [mscMaxTz] at h
    omega
  · intro h
    rcases mscStep_fold_cases f i (List.range f.num_inputs) 0 with h2 | ⟨p, hp, hpot, h2⟩
    · exact h2
    · rw [h (p) (List.mem_range.mp hp)] at hpot
      simp at hpot

lemma mscMaxTz_max_spec (f : Func) (i : Nat) (h : mscMaxTz f i ≠ 0) :
    ∃ p, p < f.num_inputs ∧ is_pot_or_zero (mscChange f i p) = false ∧
      mscMaxTz f i = ctz (mscChange f i p) + 1 ∧
      ∀ q, q < f.num_inputs → is_pot_or_zero (mscChange f i q) = false →
        ctz (mscChange f i q) + 1 ≤ mscMaxTz f i := by
  rcases mscStep_fold_cases f i (List.range f.num_inputs) 0 with h2 | ⟨p, hp, hpot, h2⟩
  · exact absurd h2 h
  · exact ⟨p, List.mem_range.mp hp, hpot, h2,
      fun q hq hqpot => mscStep_mem_le f i _ 0 q (List.mem_range.mpr hq) hqpot⟩

lemma find?_range'_spec (p : Nat → Bool) :
    ∀ (len s x : Nat), (List.range' s len).find? p = some x →
      p x = true ∧ s ≤ x ∧ x < s + len ∧ ∀ j, s ≤ j → j < x → p j = false := by
  intro len
  induction len with
  | zero => intro s x h; simp at h
  | succ len ih =>
    intro s x h
    rw [List.range'_succ, List.find?_cons] at h
    rcases hp : p s with _ | _
    · rw [hp] at h
      obtain ⟨hx, hs, hlt, hprev⟩ := ih (s + 1) x h
      refine ⟨hx, by omega, by omega, ?_⟩
      intro j hj1 hj2
      rcases Nat.eq_or_lt_of_le hj1 with rfl | hj1
      · exact hp
      · exact hprev j hj1 hj2
    · rw [hp] at h
      obtain rfl : s = x := by simpa using h
      exact ⟨hp, le_refl s, by omega, fun j hj1 hj2 => by omega⟩

lemma mscAnalyze_sentinel_iff (f : Func) (fc : Nat) :
    (mscAnalyze f fc).input_pattern = f.end_input ↔
      ∀ i, fc ≤ i → i < f.end_input → mscMaxTz f i = 0 := by
  unfold mscAnalyze
  rcases hfind : (List.range' fc (f.end_input - fc)).find? (fun i => mscMaxTz f i != 0)
    with _ | i
  · rw [List.find?_eq_none] at hfind
    constructor
    · intro _ i hi1 hi2
      have h3 := hfind i (by rw [List.mem_range'_1]; omega)
      simpa using h3
    · intro _
      rfl
  · obtain ⟨hx, hs, hlt, hprev⟩ := find?_range'_spec _ _ _ _ hfind
    constructor
    · intro h
      exfalso
      have h2 : i = f.end_input := h
      omega
    · intro h
      exfalso
      have h2 := h i hs (by omega)
      rw [h2] at hx
      simp at hx

lemma mscAnalyze_nonsentinel (f : Func) (fc : Nat)
    (h : (mscAnalyze f fc).input_pattern ≠ f.end_input) :
    fc ≤ (mscAnalyze f fc).input_pattern ∧
      (mscAnalyze f fc).input_pattern < f.end_input ∧
      mscMaxTz f (mscAnalyze f fc).input_pattern ≠ 0 ∧
      (∀ j, fc ≤ j → j < (mscAnalyze f fc).input_pattern → mscMaxTz f j = 0) ∧
      (mscAnalyze f fc).bit = mscMaxTz f (mscAnalyze f fc).input_pattern - 1 := by
  revert h
  unfold mscAnalyze
  rcases hfind : (List.range' fc (f.end_input - fc)).find? (fun i => mscMaxTz f i != 0)
    with _ | i
  · intro h
    exact absurd rfl h
  · intro _
    obtain ⟨hx, hs, hlt, hprev⟩ := find?_range'_spec _ _ _ _ hfind
    refine ⟨hs, show i < f.end_input by omega, by simpa using hx, ?_, rfl⟩
    intro j hj1 hj2
    have := hprev j hj1 hj2
    simpa using this

/-- Scanning from 0, the metastability analyzer is satisfied exactly when
flipping any input pin anywhere changes the output by at most one bit. -/
lemma mscAnalyze_zero_iff_flip (f : Func) :
    (mscAnalyze f 0).input_pattern = f.end_input ↔
      ∀ x, x < f.end_input → ∀ p, p < f.num_inputs →
        is_pot_or_zero (f.image.getD x 0 ^^^ f.image.getD (flipPin x p) 0) = true := by
  rw [mscAnalyze_sentinel_iff]
  have hend : f.end_input = 2 ^ f.num_inputs := rfl
  constructor
  · intro h x hx p hp
    by_cases ht : x.testBit p = true
    · have h2 := (mscMaxTz_eq_zero_iff f x).mp (h x (Nat.zero_le x) hx) p hp
      rw [mscChange, clearPin_of_true ht] at h2
      rwa [flipPin_of_true ht]
    · have ht' : x.testBit p = false := Bool.eq_false_iff.mpr ht
      have hy : x + 2 ^ p < f.end_input := by
        rw [hend]
        exact add_two_pow_lt_two_pow (hend ▸ hx) hp ht'
      have hyt : (x + 2 ^ p).testBit p = true := testBit_add_two_pow_self ht'
      have h2 := (mscMaxTz_eq_zero_iff f (x + 2 ^ p)).mp
        (h (x + 2 ^ p) (Nat.zero_le _) hy) p hp
      rw [mscChange, clearPin_of_true hyt] at h2
      have hxy : x + 2 ^ p - 2 ^ p = x := by omega
      rw [hxy] at h2
      rw [flipPin_of_false ht', Nat.xor_comm]
      exact h2
  · intro h i _ hi
    rw [mscMaxTz_eq_zero_iff]
    intro p hp
    by_cases ht : i.testBit p = true
    · have h2 := h i hi p hp
      rw [flipPin_of_true ht] at h2
      rwa [mscChange, clearPin_of_true ht]
    · have ht' : i.testBit p = false := Bool.eq_false_iff.mpr ht
      rw [mscChange, clearPin_of_false ht', Nat.xor_self]
      decide

/-! ### Lemmas about `output_ordered` -/

lemma ooScanAux_succ_def (f : Func) (fuel i : Nat) (st : List Nat) :
    ooScanAux f (fuel + 1) i st =
      if i < f.end_input then
        if f.image.getD i 0 % pin2mask st.length != 0 then (st, some ⟨i, st.length⟩)
        else if testPin (f.image.getD i 0) st.length then
          if (i :: st).length = f.num_outputs then (i :: st, some ⟨f.end_input, 0⟩)
          else ooScanAux f fuel (i + 1) (i :: st)
        else if ! can_fit (f.num_outputs - st.length) (f.end_input - (i + 1)) then
          (st, some ⟨i, st.length⟩)
        else ooScanAux f fuel (i + 1) st
      else (st, none) := rfl

/-- The runway invariant of the forward scan: as long as the scan starts with
`can_fit (num_outputs - |first_ones|) (end_input - i)`, it always produces a
proposal before falling off the end of the table. -/
lemma ooScanAux_isSome (f : Func) :
    ∀ (fuel i : Nat) (st : List Nat), f.end_input - i ≤ fuel →
      st.length < f.num_outputs →
      can_fit (f.num_outputs - st.length) (f.end_input - i) = true →
      (ooScanAux f fuel i st).2.isSome = true := by
  intro fuel
  induction fuel with
  | zero =>
    intro i st hf hlt hcf
    exfalso
    simp only [can_fit, decide_eq_true_eq] at hcf
    omega
  | succ fuel ih =>
    intro i st hf hlt hcf
    rw [ooScanAux_succ_def]
    by_cases hi : i < f.end_input
    · rw [if_pos hi]
      by_cases h1 : (f.image.getD i 0 % pin2mask st.length != 0) = true
      · rw [if_pos h1]; rfl
      · rw [if_neg h1]
        by_cases h2 : testPin (f.image.getD i 0) st.length = true
        · rw [if_pos h2]
          by_cases h3 : (i :: st).length = f.num_outputs
          · rw [if_pos h3]; rfl
          · rw [if_neg h3]
            refine ih (i + 1) (i :: st) (by omega) ?_ ?_
            · have hc : (i :: st).length = st.length + 1 := rfl
              omega
            · have hc : (i :: st).length = st.length + 1 := rfl
              simp only [can_fit, decide_eq_true_eq] at hcf ⊢
              omega
        · rw [if_neg h2]
          rcases h4 : can_fit (f.num_outputs - st.length) (f.end_input - (i + 1)) with _ | _
          · rw [if_pos (by decide : (!false) = true)]; rfl
          · rw [if_neg (by decide : ¬(!true) = true)]
            exact ih (i + 1) st (by omega) hlt h4
    · exfalso
      simp only [can_fit, decide_eq_true_eq] at hcf
      omega

lemma ooAnalyze_isSome (f : Func) (st0 : List Nat) (fc : Nat)
    (h : (ooUnwind fc st0).length = f.num_outputs ∨
      ((ooUnwind fc st0).length < f.num_outputs ∧
        can_fit (f.num_outputs - (ooUnwind fc st0).length) (f.end_input - fc) = true)) :
    (ooAnalyze f st0 fc).2.isSome = true := by
  unfold ooAnalyze
  by_cases hlen : (ooUnwind fc st0).length = f.num_outputs
  · rw [if_pos hlen]; rfl
  · rw [if_neg hlen]
    rcases h with h | ⟨h1, h2⟩
    · exact absurd h hlen
    · exact ooScanAux_isSome f _ fc _ (le_refl _) h1 h2

/-! ### The runway invariant across whole driver runs -/

lemma can_fit_zero (w : Nat) : can_fit 0 w = true := by
  simp [can_fit]

lemma countLt_cons (e : Nat) (st : List Nat) (j : Nat) :
    countLt (e :: st) j = (if e < j then 1 else 0) + countLt st j := by
  unfold countLt
  rw [List.filter_cons]
  by_cases h : e < j
  · rw [if_pos h]
    simp [h]
    omega
  · rw [if_neg h]
    simp [h]

lemma countLt_eq_length_of_lt {st : List Nat} {j : Nat} (h : ∀ e ∈ st, e < j) :
    countLt st j = st.length := by
  induction st with
  | nil => rfl
  | cons e t ih =>
    rw [countLt_cons, if_pos (h e (List.mem_cons_self _ _)), List.length_cons,
      ih (fun x hx => h x (List.mem_cons_of_mem _ hx))]
    omega

lemma filter_lt_eq_self {st : List Nat} {fc : Nat} (h : ∀ e ∈ st, e < fc) :
    st.filter (fun e => decide (e < fc)) = st := by
  induction st with
  | nil => rfl
  | cons e t ih =>
    rw [List.filter_cons, if_pos (by simpa using h e (List.mem_cons_self _ _)),
      ih (fun x hx => h x (List.mem_cons_of_mem _ hx))]

lemma ooUnwind_eq_filter (fc : Nat) :
    ∀ st : List Nat, st.Pairwise (fun a b => b < a) →
      ooUnwind fc st = st.filter (fun e => decide (e < fc)) := by
  intro st
  induction st with
  | nil => intro _; rfl
  | cons e t ih =>
    intro hpw
    rw [List.pairwise_cons] at hpw
    unfold ooUnwind
    by_cases h : fc ≤ e
    · rw [if_pos h, List.filter_cons, if_neg (by simp; omega), ih hpw.2]
    · rw [if_neg h, List.filter_cons, if_pos (by simp; omega)]
      rw [filter_lt_eq_self (fun x hx => by have := hpw.1 x hx; omega)]

lemma countLt_filter_le {st : List Nat} {fc j : Nat} (h : j ≤ fc) :
    countLt (st.filter (fun e => decide (e < fc))) j = countLt st j := by
  induction st with
  | nil => rfl
  | cons e t ih =>
    rw [List.filter_cons]
    by_cases he : e < fc
    · rw [if_pos (by simpa using he), countLt_cons, countLt_cons, ih]
    · rw [if_neg (by simpa using he), countLt_cons, if_neg (by omega), ih]
      omega

lemma assign_min_place (a b : BitAddress) :
    (a.assign_min b).input_pattern = min a.input_pattern b.input_pattern := by
  unfold BitAddress.assign_min
  split
  · omega
  · split
    · simp
      omega
    · omega

lemma advance_ret_le (f : Func) (a : BitAddress)
    (hlen : f.image.length = f.end_input) (hpl : a.input_pattern < f.end_input) :
    (f.advance a).2 ≤ a.input_pattern ∨ (f.advance a).2 = f.end_input := by
  have hL : a.input_pattern < (zeroAfter f.image a.input_pattern).length := by
    rw [zeroAfter_length]; omega
  rcases carryLoop_cases f.end_output a.input_pattern (pin2mask a.bit)
      (zeroAfter f.image a.input_pattern) hL with
    ⟨k, img', heq, hk1, hki, _, _, _, _, _, _⟩ | ⟨img', heq, _, _, _, _⟩
  · left
    rw [advance_snd, heq]
    exact hki
  · right
    rw [advance_snd, heq]
    rfl

/-- Full account of one forward scan of `output_ordered::analyze`: starting
with the runway invariant, it returns a proposal `r`, its final state keeps
the counts below the untouched prefix, and the runway invariant holds at
every position up to and including `r`'s place. -/
lemma ooScanAux_run_spec (f : Func) :
    ∀ (fuel i : Nat) (st : List Nat),
      f.end_input - i ≤ fuel →
      st.Pairwise (fun a b => b < a) →
      (∀ e ∈ st, e < i) →
      st.length < f.num_outputs →
      can_fit (f.num_outputs - st.length) (f.end_input - i) = true →
      ∃ st2 r, ooScanAux f fuel i st = (st2, some r) ∧
        st2.Pairwise (fun a b => b < a) ∧
        (∀ e ∈ st2, e < f.end_input) ∧
        st2.length ≤ f.num_outputs ∧
        i ≤ r.input_pattern ∧ r.input_pattern ≤ f.end_input ∧
        (∀ j, j ≤ i → countLt st2 j = countLt st j) ∧
        (∀ j, i ≤ j → j ≤ r.input_pattern →
          can_fit (f.num_outputs - countLt st2 j) (f.end_input - j) = true) := by
  intro fuel
  induction fuel with
  | zero =>
    intro i st hf hpw hlt hlen hcf
    exfalso
    simp only [can_fit, decide_eq_true_eq] at hcf
    omega
  | succ fuel ih =>
    intro i st hf hpw hlt hlen hcf
    have hcnt_full : countLt st i = st.length := countLt_eq_length_of_lt hlt
    by_cases hi : i < f.end_input
    · rw [ooScanAux_succ_def, if_pos hi]
      by_cases h1 : (f.image.getD i 0 % pin2mask st.length != 0) = true
      · rw [if_pos h1]
        refine ⟨st, ⟨i, st.length⟩, rfl, hpw, fun e he => by have := hlt e he; omega,
          by omega, le_refl i, Nat.le_of_lt hi, fun j _ => rfl, ?_⟩
        intro j hj1 hj2
        have hj2' : j ≤ i := hj2
        have hj : j = i := by omega
        rw [hj, hcnt_full]
        exact hcf
      · rw [if_neg h1]
        by_cases h2 : testPin (f.image.getD i 0) st.length = true
        · rw [if_pos h2]
          by_cases h3 : (i :: st).length = f.num_outputs
          · rw [if_pos h3]
            refine ⟨i :: st, ⟨f.end_input, 0⟩, rfl,
              List.pairwise_cons.mpr ⟨hlt, hpw⟩,
              ?_, by omega, Nat.le_of_lt hi, le_refl _, ?_, ?_⟩
            · intro e he
              rcases List.mem_cons.mp he with rfl | he
              · exact hi
              · have := hlt e he; omega
            · intro j hj
              rw [countLt_cons, if_neg (by omega), Nat.zero_add]
            · intro j hj1 hj2
              rcases Nat.lt_or_ge i j with hj1' | hj1'
              · have hall : countLt (i :: st) j = (i :: st).length :=
                  countLt_eq_length_of_lt (by
                    intro e he
                    rcases List.mem_cons.mp he with rfl | he
                    · omega
                    · have := hlt e he; omega)
                rw [hall, h3]
                simpa using can_fit_zero (f.end_input - j)
              · have hji : j = i := by omega
                rw [countLt_cons, if_neg (by omega), Nat.zero_add, hji, hcnt_full]
                have hlist : (i :: st).length = st.length + 1 := rfl
                simp only [can_fit, decide_eq_true_eq] at hcf ⊢
                omega
          · rw [if_neg h3]
            have hlist : (i :: st).length = st.length + 1 := rfl
            obtain ⟨st2, r, heq2, hpw2, hlt2, hlen2, hge2, hle2, hcnt2, hfit2⟩ :=
              ih (i + 1) (i :: st) (by omega)
                (List.pairwise_cons.mpr ⟨hlt, hpw⟩)
                (by
                  intro e he
                  rcases List.mem_cons.mp he with rfl | he
                  · omega
                  · have := hlt e he; omega)
                (by omega)
                (by
                  simp only [can_fit, decide_eq_true_eq] at hcf ⊢
                  omega)
            refine ⟨st2, r, heq2, hpw2, hlt2, hlen2, by omega, hle2, ?_, ?_⟩
            · intro j hj
              rw [hcnt2 j (by omega), countLt_cons, if_neg (by omega), Nat.zero_add]
            · intro j hj1 hj2
              rcases Nat.lt_or_ge i j with hj1' | hj1'
              · exact hfit2 j (by omega) hj2
              · have hji : j = i := by omega
                rw [hcnt2 j (by omega), countLt_cons, if_neg (by omega), Nat.zero_add,
                  hji, hcnt_full]
                exact hcf
        · rw [if_neg h2]
          rcases h4 : can_fit (f.num_outputs - st.length) (f.end_input - (i + 1))
            with _ | _
          · rw [if_pos (by decide : (!false) = true)]
            refine ⟨st, ⟨i, st.length⟩, rfl, hpw,
              fun e he => by have := hlt e he; omega, by omega, le_refl i,
              Nat.le_of_lt hi, fun j _ => rfl, ?_⟩
            intro j hj1 hj2
            have hj2' : j ≤ i := hj2
            have hj : j = i := by omega
            rw [hj, hcnt_full]
            exact hcf
          · rw [if_neg (by decide : ¬(!true) = true)]
            obtain ⟨st2, r, heq2, hpw2, hlt2, hlen2, hge2, hle2, hcnt2, hfit2⟩ :=
              ih (i + 1) st (by omega) hpw
                (fun e he => by have := hlt e he; omega) hlen h4
            refine ⟨st2, r, heq2, hpw2, hlt2, hlen2, by omega, hle2, ?_, ?_⟩
            · intro j hj
              exact hcnt2 j (by omega)
            · intro j hj1 hj2
              rcases Nat.lt_or_ge i j with hj1' | hj1'
              · exact hfit2 j (by omega) hj2
              · have hji : j = i := by omega
                rw [hcnt2 j (by omega), hji, hcnt_full]
                exact hcf
    · exfalso
      simp only [can_fit, decide_eq_true_eq] at hcf
      omega

/-- Full account of one `output_ordered::analyze` call: if the private state
is strictly decreasing (most recent first), bounded, no longer than the pin
count, and the runway invariant holds at every position up to
`first_changed`, then the call returns a proposal `r` and re-establishes
the same invariant up to `r`'s place. -/
lemma ooAnalyze_run_spec (f : Func) (st0 : List Nat) (fc : Nat)
    (hpw : st0.Pairwise (fun a b => b < a))
    (hbd : ∀ e ∈ st0, e < f.end_input)
    (hlen0 : st0.length ≤ f.num_outputs)
    (hJ : ∀ j, j ≤ fc → can_fit (f.num_outputs - countLt st0 j) (f.end_input - j) = true) :
    ∃ st2 r, ooAnalyze f st0 fc = (st2, some r) ∧
      st2.Pairwise (fun a b => b < a) ∧
      (∀ e ∈ st2, e < f.end_input) ∧
      st2.length ≤ f.num_outputs ∧
      r.input_pattern ≤ f.end_input ∧
      (∀ j, j ≤ r.input_pattern →
        can_fit (f.num_outputs - countLt st2 j) (f.end_input - j) = true) := by
  have hun : ooUnwind fc st0 = st0.filter (fun e => decide (e < fc)) :=
    ooUnwind_eq_filter fc st0 hpw
  have hpw' : (ooUnwind fc st0).Pairwise (fun a b => b < a) := by
    rw [hun]
    exact hpw.filter _
  have hmem' : ∀ e ∈ ooUnwind fc st0, e < fc ∧ e < f.end_input := by
    intro e he
    rw [hun, List.mem_filter] at he
    exact ⟨by simpa using he.2, hbd e he.1⟩
  have hlen' : (ooUnwind fc st0).length = countLt st0 fc := by
    rw [hun]
    rfl
  have hcnt' : ∀ j, j ≤ fc → countLt (ooUnwind fc st0) j = countLt st0 j := by
    intro j hj
    rw [hun]
    exact countLt_filter_le hj
  have hooeq : ooAnalyze f st0 fc =
      if (ooUnwind fc st0).length = f.num_outputs then
        (ooUnwind fc st0, some ⟨f.end_input, 0⟩)
      else ooScanAux f (f.end_input - fc) fc (ooUnwind fc st0) := rfl
  rw [hooeq]
  by_cases hfull : (ooUnwind fc st0).length = f.num_outputs
  · rw [if_pos hfull]
    refine ⟨ooUnwind fc st0, ⟨f.end_input, 0⟩, rfl, hpw',
      fun e he => (hmem' e he).2, by omega, le_refl _, ?_⟩
    intro j hj
    by_cases hjfc : j ≤ fc
    · rw [hcnt' j hjfc]
      exact hJ j hjfc
    · have hall : countLt (ooUnwind fc st0) j = (ooUnwind fc st0).length :=
        countLt_eq_length_of_lt (fun e he => by have := (hmem' e he).1; omega)
      rw [hall, hfull]
      simpa using can_fit_zero (f.end_input - j)
  · rw [if_neg hfull]
    have hlt : (ooUnwind fc st0).length < f.num_outputs := by
      have h5 : (ooUnwind fc st0).length ≤ st0.length := by
        rw [hun]
        exact List.length_filter_le _ _
      omega
    obtain ⟨st2, r, heq2, hpw2, hlt2, hlen2, hge2, hle2, hcnt2, hfit2⟩ :=
      ooScanAux_run_spec f (f.end_input - fc) fc (ooUnwind fc st0) (le_refl _)
        hpw' (fun e he => (hmem' e he).1) hlt
        (by rw [hlen']; exact hJ fc (le_refl fc))
    refine ⟨st2, r, heq2, hpw2, hlt2, hlen2, hle2, ?_⟩
    intro j hj
    by_cases hjfc : j ≤ fc
    · rw [hcnt2 j hjfc, hcnt' j hjfc]
      exact hJ j hjfc
    · exact hfit2 j (by omega) hj

/-- The runway invariant is preserved across the whole driver loop: no
`output_ordered` analysis of the run ever reaches the `assert(false)`
fallthrough. -/
lemma searchLoopOOsafe_true :
    ∀ (fuel : Nat) (s : SearchState) (lc : Nat),
      s.f.image.length = s.f.end_input →
      s.ooSt.Pairwise (fun a b => b < a) →
      (∀ e ∈ s.ooSt, e < s.f.end_input) →
      s.ooSt.length ≤ s.f.num_outputs →
      (∀ j, j ≤ lc →
        can_fit (s.f.num_outputs - countLt s.ooSt j) (s.f.end_input - j) = true) →
      searchLoopOOsafe fuel s lc = true := by
  intro fuel
  induction fuel with
  | zero => intro s lc _ _ _ _ _; rfl
  | succ fuel ih =>
    intro s lc hflen hpw hbd hstlen hJ
    obtain ⟨st2, r, heq, hpw2, hbd2, hlen2, hle2, hfit2⟩ :=
      ooAnalyze_run_spec s.f s.ooSt lc hpw hbd hstlen hJ
    simp only [searchLoopOOsafe, heq, Option.isSome_some, Bool.true_and,
      Option.getD_some]
    have hnext : ((((⟨s.f.end_input, 0⟩ : BitAddress).assign_min r).assign_min
        (mscAnalyze s.f lc)).assign_min (irAnalyze s.f s.irSt lc).2).input_pattern ≤
          r.input_pattern := by
      rw [assign_min_place, assign_min_place, assign_min_place]
      omega
    set next := (((⟨s.f.end_input, 0⟩ : BitAddress).assign_min r).assign_min
        (mscAnalyze s.f lc)).assign_min (irAnalyze s.f s.irSt lc).2 with hnextdef
    have hnend : next.input_pattern ≤ s.f.end_input := by
      rw [hnextdef, assign_min_place, assign_min_place, assign_min_place]
      omega
    have hend : ∀ a : BitAddress, (s.f.advance a).1.end_input = s.f.end_input := by
      intro a
      show pin2mask (s.f.advance a).1.num_inputs = pin2mask s.f.num_inputs
      rw [(advance_widths s.f a).1]
    have hout : ∀ a : BitAddress, (s.f.advance a).1.num_outputs = s.f.num_outputs :=
      fun a => (advance_widths s.f a).2
    by_cases hemit : next.input_pattern = s.f.end_input
    · rw [if_pos hemit]
      have hrend : r.input_pattern = s.f.end_input := by omega
      by_cases hcont : (s.f.advance ⟨s.f.end_input - 1, 0⟩).2 < s.f.end_input
      · rw [if_pos hcont]
        apply ih ⟨(s.f.advance ⟨s.f.end_input - 1, 0⟩).1, st2,
          (irAnalyze s.f s.irSt lc).1⟩ (s.f.advance ⟨s.f.end_input - 1, 0⟩).2
        · show (s.f.advance ⟨s.f.end_input - 1, 0⟩).1.image.length =
            (s.f.advance ⟨s.f.end_input - 1, 0⟩).1.end_input
          rw [advance_image_length, hflen, hend]
        · exact hpw2
        · intro e he
          show e < (s.f.advance ⟨s.f.end_input - 1, 0⟩).1.end_input
          rw [hend]
          exact hbd2 e he
        · show st2.length ≤ (s.f.advance ⟨s.f.end_input - 1, 0⟩).1.num_outputs
          rw [hout]
          exact hlen2
        · intro j hj
          show can_fit ((s.f.advance ⟨s.f.end_input - 1, 0⟩).1.num_outputs -
              countLt st2 j)
            ((s.f.advance ⟨s.f.end_input - 1, 0⟩).1.end_input - j) = true
          rw [hout, hend]
          exact hfit2 j (by omega)
      · rw [if_neg hcont]
    · rw [if_neg hemit]
      have hnlt : next.input_pattern < s.f.end_input := by omega
      by_cases hcont : (s.f.advance next).2 < s.f.end_input
      · rw [if_pos hcont]
        have hret := advance_ret_le s.f next hflen hnlt
        have hret2 : (s.f.advance next).2 ≤ r.input_pattern := by omega
        apply ih ⟨(s.f.advance next).1, st2, (irAnalyze s.f s.irSt lc).1⟩
          (s.f.advance next).2
        · show (s.f.advance next).1.image.length = (s.f.advance next).1.end_input
          rw [advance_image_length, hflen, hend]
        · exact hpw2
        · intro e he
          show e < (s.f.advance next).1.end_input
          rw [hend]
          exact hbd2 e he
        · show st2.length ≤ (s.f.advance next).1.num_outputs
          rw [hout]
          exact hlen2
        · intro j hj
          show can_fit ((s.f.advance next).1.num_outputs - countLt st2 j)
            ((s.f.advance next).1.end_input - j) = true
          rw [hout, hend]
          exact hfit2 j (by omega)
      · rw [if_neg hcont]

/-- In every driver run, with any widths and any fuel, the `output_ordered`
analyzer always produces a proposal. -/
lemma searchOOsafe_eq_true (n m fuel : Nat) : searchOOsafe n m fuel = true := by
  have heq : searchOOsafe n m fuel =
      if can_fit m (Func.init n m).end_input then
        searchLoopOOsafe fuel
          ⟨Func.init n m, [], List.replicate n (Func.init n m).end_input⟩ 0
      else true := rfl
  rw [heq]
  by_cases h : can_fit m (Func.init n m).end_input = true
  · rw [if_pos h]
    apply searchLoopOOsafe_true
    · show (List.replicate (pin2mask n) 0).length = pin2mask n
      simp
    · exact List.Pairwise.nil
    · intro e he
      exact absurd he (List.not_mem_nil e)
    · show ([] : List Nat).length ≤ m
      exact Nat.zero_le m
    · intro j hj
      have hj0 : j = 0 := Nat.le_zero.mp hj
      subst hj0
      show can_fit (m - 0) ((Func.init n m).end_input - 0) = true
      rw [Nat.sub_zero, Nat.sub_zero]
      exact h
  · rw [if_neg h]

/-! ### Lemmas about `input_relevance` -/

lemma relCount_cons (a : Nat) (t : List Nat) (e : Nat) :
    relCount (a :: t) e = (if a != e then 1 else 0) + relCount t e := by
  unfold relCount
  rw [List.filter_cons]
  split
  · simp only [List.length_cons]
    omega
  · omega

lemma relCount_le_length (st : List Nat) (e : Nat) : relCount st e ≤ st.length :=
  le_trans (List.length_filter_le _ _) (le_refl _)

lemma relCount_set_le (e : Nat) :
    ∀ (st : List Nat) (pin v : Nat), relCount (st.set pin v) e ≤ relCount st e + 1 := by
  intro st
  induction st with
  | nil => intro pin v; simp [relCount]
  | cons a t ih =>
    intro pin v
    cases pin with
    | zero =>
      rw [List.set_cons_zero, relCount_cons, relCount_cons]
      split <;> split <;> omega
    | succ pin =>
      rw [List.set_cons_succ, relCount_cons, relCount_cons]
      have := ih pin v
      split <;> omega

lemma irUnwind_length (st : List Nat) (e fc : Nat) :
    (irUnwind st e fc).length = st.length := List.length_map st _

lemma irPinsAux_succ_def (f : Func) (i fuel in_pin : Nat) (st : List Nat) :
    irPinsAux f i (fuel + 1) in_pin st =
      if in_pin < f.num_inputs then
        if st.getD in_pin 0 < i then irPinsAux f i fuel (in_pin + 1) st
        else if ! testPin i in_pin then irPinsAux f i fuel (in_pin + 1) st
        else if f.image.getD i 0 != f.image.getD (clearPin i in_pin) 0 then
          if relCount (st.set in_pin i) f.end_input = f.num_inputs then
            (st.set in_pin i, true)
          else irPinsAux f i fuel (in_pin + 1) (st.set in_pin i)
        else irPinsAux f i fuel (in_pin + 1) st
      else (st, false) := rfl

lemma irPinsAux_false_count (f : Func) (i : Nat) :
    ∀ (fuel in_pin : Nat) (st : List Nat),
      relCount st f.end_input < f.num_inputs →
      (irPinsAux f i fuel in_pin st).2 = false →
      relCount (irPinsAux f i fuel in_pin st).1 f.end_input < f.num_inputs := by
  intro fuel
  induction fuel with
  | zero => intro in_pin st h _; exact h
  | succ fuel ih =>
    intro in_pin st h hfalse
    rw [irPinsAux_succ_def] at hfalse ⊢
    by_cases hp : in_pin < f.num_inputs
    · rw [if_pos hp] at hfalse ⊢
      by_cases c1 : st.getD in_pin 0 < i
      · rw [if_pos c1] at hfalse ⊢
        exact ih _ _ h hfalse
      · rw [if_neg c1] at hfalse ⊢
        by_cases c2 : (! testPin i in_pin) = true
        · rw [if_pos c2] at hfalse ⊢
          exact ih _ _ h hfalse
        · rw [if_neg c2] at hfalse ⊢
          by_cases c3 : (f.image.getD i 0 != f.image.getD (clearPin i in_pin) 0) = true
          · rw [if_pos c3] at hfalse ⊢
            by_cases c4 : relCount (st.set in_pin i) f.end_input = f.num_inputs
            · rw [if_pos c4] at hfalse
              simp at hfalse
            · rw [if_neg c4] at hfalse ⊢
              refine ih _ _ ?_ hfalse
              have h5 := relCount_set_le f.end_input st in_pin i
              omega
          · rw [if_neg c3] at hfalse ⊢
            exact ih _ _ h hfalse
    · rw [if_neg hp] at hfalse ⊢
      exact h

lemma irScanAux_succ_def (f : Func) (fuel i : Nat) (st : List Nat) :
    irScanAux f (fuel + 1) i st =
      if i < f.end_input then
        if (irPins f i st).2 then ((irPins f i st).1, true)
        else irScanAux f fuel (i + 1) (irPins f i st).1
      else (st, false) := by
  by_cases hi : i < f.end_input
  · rw [if_pos hi]
    show (if i < f.end_input then _ else _ : List Nat × Bool) = _
    rw [if_pos hi]
    rcases irPins f i st with ⟨st', b⟩
    cases b <;> rfl
  · rw [if_neg hi]
    show (if i < f.end_input then _ else _ : List Nat × Bool) = _
    rw [if_neg hi]

lemma irScanAux_false_count (f : Func) :
    ∀ (fuel i : Nat) (st : List Nat),
      relCount st f.end_input < f.num_inputs →
      (irScanAux f fuel i st).2 = false →
      relCount (irScanAux f fuel i st).1 f.end_input < f.num_inputs := by
  intro fuel
  induction fuel with
  | zero => intro i st h _; exact h
  | succ fuel ih =>
    intro i st h hfalse
    rw [irScanAux_succ_def] at hfalse ⊢
    by_cases hi : i < f.end_input
    · rw [if_pos hi] at hfalse ⊢
      by_cases hb : (irPins f i st).2 = true
      · rw [if_pos hb] at hfalse
        simp at hfalse
      · rw [if_neg hb] at hfalse ⊢
        have hcount : relCount (irPins f i st).1 f.end_input < f.num_inputs := by
          have h6 := irPinsAux_false_count f i f.num_inputs 0 st h
          exact h6 (Bool.eq_false_iff.mpr hb)
        exact ih _ _ hcount hfalse
    · rw [if_neg hi] at hfalse ⊢
      exact h

/-! ### Claim theorems -/

/-- C2: on a function whose digits are all below `2^num_outputs` and a place
below `2^num_inputs`, `advance` zeroes every entry strictly after the index
it returns (in particular after `place`), adds `2^bit` to `image[place]`,
and propagates a carry toward index 1 — each carry step zeroing the
overflowed digit (which held `2^num_outputs - 1`) and adding 1 to the next
more significant one — returning the first index whose updated digit is
below `2^num_outputs`; when the carry would propagate past index 1 it
returns the sentinel `2^num_inputs` with every digit from index 1 on
zeroed. -/
theorem C2_advance_functional_spec (f : Func) (a : BitAddress)
    (hlen : f.image.length = f.end_input)
    (hdig : ∀ d ∈ f.image, d < f.end_output)
    (hplace : a.input_pattern < f.end_input) :
    (f.advance a).1.image.length = f.end_input ∧
    (f.advance a).1.image.getD 0 0 = f.image.getD 0 0 ∧
    (((f.advance a).2 = f.end_input ∧
        (∀ j, 1 ≤ j → (f.advance a).1.image.getD j 0 = 0) ∧
        (1 ≤ a.input_pattern →
          f.end_output ≤ f.image.getD a.input_pattern 0 + 2 ^ a.bit ∧
          ∀ j, 1 ≤ j → j < a.input_pattern →
            f.image.getD j 0 = f.end_output - 1)) ∨
      (1 ≤ (f.advance a).2 ∧ (f.advance a).2 ≤ a.input_pattern ∧
        (∀ j, j < (f.advance a).2 →
          (f.advance a).1.image.getD j 0 = f.image.getD j 0) ∧
        (∀ j, (f.advance a).2 < j → (f.advance a).1.image.getD j 0 = 0) ∧
        (f.advance a).1.image.getD (f.advance a).2 0 < f.end_output ∧
        ((f.advance a).2 = a.input_pattern →
          (f.advance a).1.image.getD (f.advance a).2 0 =
            f.image.getD a.input_pattern 0 + 2 ^ a.bit) ∧
        ((f.advance a).2 < a.input_pattern →
          (f.advance a).1.image.getD (f.advance a).2 0 =
            f.image.getD (f.advance a).2 0 + 1 ∧
          f.end_output ≤ f.image.getD a.input_pattern 0 + 2 ^ a.bit ∧
          ∀ j, (f.advance a).2 < j → j < a.input_pattern →
            f.image.getD j 0 = f.end_output - 1))) := by
  have hL : a.input_pattern < (zeroAfter f.image a.input_pattern).length := by
    rw [zeroAfter_length]; omega
  have hmem : ∀ j, j < f.end_input → f.image.getD j 0 ∈ f.image := by
    intro j hj
    have hj2 : j < f.image.length := by omega
    rw [List.getD_eq_getElem?_getD, List.getElem?_eq_getElem hj2]
    exact List.getElem_mem hj2
  refine ⟨?_, advance_getD_zero f a, ?_⟩
  · rw [advance_image_length, hlen]
  rcases carryLoop_cases f.end_output a.input_pattern (pin2mask a.bit)
      (zeroAfter f.image a.input_pattern) hL with
    ⟨k, img', heq, hk1, hki, hkbound, hwrap, hunch, hzero, hkval, hlen2⟩ |
    ⟨img', heq, hwrap, hunch, hzero, hlen2⟩
  · right
    have himg : (f.advance a).1.image = img' := by rw [advance_fst_image, heq]
    have hsnd : (f.advance a).2 = k := by rw [advance_snd, heq]; rfl
    rw [himg, hsnd]
    have hz0 : ∀ j, j ≤ a.input_pattern →
        (zeroAfter f.image a.input_pattern).getD j 0 = f.image.getD j 0 :=
      fun j hj => zeroAfter_getD_le hj
    have hzg : ∀ j, a.input_pattern < j →
        (zeroAfter f.image a.input_pattern).getD j 0 = 0 :=
      fun j hj => zeroAfter_getD_gt hj
    refine ⟨hk1, hki, ?_, ?_, ?_, ?_, ?_⟩
    · intro j hj
      rw [hunch j (Or.inl hj), hz0 j (by omega)]
    · intro j hj
      rcases Nat.lt_or_ge a.input_pattern j with hj2 | hj2
      · rw [hunch j (Or.inr hj2), hzg j hj2]
      · exact hzero j hj hj2
    · rw [hkval]
      exact hkbound
    · intro hkp
      rw [hkval, if_pos hkp, hz0 k hki, hkp]
      rfl
    · intro hkp
      refine ⟨?_, ?_, ?_⟩
      · rw [hkval, if_neg (by omega), hz0 k hki]
      · have := hwrap a.input_pattern hkp (le_refl _)
        rw [if_pos rfl, hz0 _ (le_refl _)] at this
        exact this
      · intro j hj1 hj2
        have hw := hwrap j hj1 (by omega)
        rw [if_neg (by omega), hz0 j (by omega)] at hw
        have hdj := hdig _ (hmem j (by omega))
        omega
  · left
    have himg : (f.advance a).1.image = img' := by rw [advance_fst_image, heq]
    have hsnd : (f.advance a).2 = f.end_input := by rw [advance_snd, heq]; rfl
    rw [himg, hsnd]
    have hz0 : ∀ j, j ≤ a.input_pattern →
        (zeroAfter f.image a.input_pattern).getD j 0 = f.image.getD j 0 :=
      fun j hj => zeroAfter_getD_le hj
    have hzg : ∀ j, a.input_pattern < j →
        (zeroAfter f.image a.input_pattern).getD j 0 = 0 :=
      fun j hj => zeroAfter_getD_gt hj
    refine ⟨rfl, ?_, ?_⟩
    · intro j hj
      rcases Nat.lt_or_ge a.input_pattern j with hj2 | hj2
      · rw [hunch j (Or.inr hj2), hzg j hj2]
      · exact hzero j hj hj2
    · intro hp1
      constructor
      · have := hwrap a.input_pattern hp1 (le_refl _)
        rw [if_pos rfl, hz0 _ (le_refl _)] at this
        exact this
      · intro j hj1 hj2
        have hw := hwrap j hj1 (by omega)
        rw [if_neg (by omega), hz0 j (by omega)] at hw
        have hdj := hdig _ (hmem j (by omega))
        omega

/-- Witness for C2 at the concrete call `advance([0,1,0,3], (3,0))` of the
(2,2) search, which carries into place 2 producing `[0,1,1,0]`. -/
theorem C2_advance_functional_spec_witness :
    (Func.mk 2 2 [0, 1, 0, 3]).image.length = (Func.mk 2 2 [0, 1, 0, 3]).end_input ∧
    (∀ d ∈ (Func.mk 2 2 [0, 1, 0, 3]).image, d < (Func.mk 2 2 [0, 1, 0, 3]).end_output) ∧
    (3 : Nat) < (Func.mk 2 2 [0, 1, 0, 3]).end_input ∧
    ((Func.mk 2 2 [0, 1, 0, 3]).advance ⟨3, 0⟩).1.image.length =
      (Func.mk 2 2 [0, 1, 0, 3]).end_input :=
  ⟨by decide, by decide, by decide,
    (C2_advance_functional_spec (Func.mk 2 2 [0, 1, 0, 3]) ⟨3, 0⟩ (by decide)
      (by decide) (by decide)).1⟩

/-- C5: as long as `advance` does not return the exhausted sentinel, it
strictly increases the image's value read as a mixed-radix number (index 0
most significant, digits in `[0, 2^num_outputs)`), so no table value is ever
produced twice by the search. -/
theorem C5_advance_strictly_increases (f : Func) (a : BitAddress)
    (hlen : f.image.length = f.end_input)
    (hdig : ∀ d ∈ f.image, d < f.end_output)
    (hplace : a.input_pattern < f.end_input)
    (hr : (f.advance a).2 < f.end_input) :
    mval f.end_output f.image < mval f.end_output (f.advance a).1.image := by
  have hL : a.input_pattern < (zeroAfter f.image a.input_pattern).length := by
    rw [zeroAfter_length]; omega
  rcases carryLoop_cases f.end_output a.input_pattern (pin2mask a.bit)
      (zeroAfter f.image a.input_pattern) hL with
    ⟨k, img', heq, hk1, hki, hkbound, hwrap, hunch, hzero, hkval, hlen2⟩ |
    ⟨img', heq, hwrap, hunch, hzero, hlen2⟩
  · have himg : (f.advance a).1.image = img' := by rw [advance_fst_image, heq]
    have hz0 : ∀ j, j ≤ a.input_pattern →
        (zeroAfter f.image a.input_pattern).getD j 0 = f.image.getD j 0 :=
      fun j hj => zeroAfter_getD_le hj
    rw [himg]
    refine mval_lt_mval f.end_output k f.image img' ?_ ?_ ?_ ?_ hdig
    · rw [hlen2, zeroAfter_length]
    · omega
    · intro j hj
      rw [hunch j (Or.inl hj), hz0 j (by omega)]
    · rw [hkval, hz0 k hki]
      have hone : 1 ≤ (if k = a.input_pattern then pin2mask a.bit else 1) := by
        split
        · exact pin2mask_pos a.bit
        · exact le_refl 1
      omega
  · have hsnd : (f.advance a).2 = f.end_input := by rw [advance_snd, heq]; rfl
    omega

/-- Witness for C5 at the concrete call `advance([0,1,0,3], (3,0))`. -/
theorem C5_advance_strictly_increases_witness :
    (Func.mk 2 2 [0, 1, 0, 3]).image.length = (Func.mk 2 2 [0, 1, 0, 3]).end_input ∧
    (∀ d ∈ (Func.mk 2 2 [0, 1, 0, 3]).image, d < (Func.mk 2 2 [0, 1, 0, 3]).end_output) ∧
    (3 : Nat) < (Func.mk 2 2 [0, 1, 0, 3]).end_input ∧
    ((Func.mk 2 2 [0, 1, 0, 3]).advance ⟨3, 0⟩).2 < (Func.mk 2 2 [0, 1, 0, 3]).end_input ∧
    mval (Func.mk 2 2 [0, 1, 0, 3]).end_output (Func.mk 2 2 [0, 1, 0, 3]).image <
      mval (Func.mk 2 2 [0, 1, 0, 3]).end_output
        ((Func.mk 2 2 [0, 1, 0, 3]).advance ⟨3, 0⟩).1.image :=
  ⟨by decide, by decide, by decide, by decide,
    C5_advance_strictly_increases (Func.mk 2 2 [0, 1, 0, 3]) ⟨3, 0⟩ (by decide)
      (by decide) (by decide) (by decide)⟩

/-- C9: whenever the forward scan of `input_relevance::analyze` reaches the
end of the table with at least one input pin still not proven relevant, the
analyzer returns the skip target `(2^num_inputs - 1, 0)`; the only other
possible answer is the satisfied sentinel. -/
theorem C9_ir_exhausted_returns_last_place (f : Func) (st0 : List Nat) (fc : Nat)
    (hst : st0.length = f.num_inputs) :
    (irAnalyze f st0 fc).2 = ⟨f.end_input, 0⟩ ∨
      ((irAnalyze f st0 fc).2 = ⟨f.end_input - 1, 0⟩ ∧
        relCount (irAnalyze f st0 fc).1 f.end_input < f.num_inputs) := by
  simp only [irAnalyze]
  by_cases h1 : relCount (irUnwind st0 f.end_input fc) f.end_input = f.num_inputs
  · rw [if_pos h1]
    left
    rfl
  · rw [if_neg h1]
    have hle : relCount (irUnwind st0 f.end_input fc) f.end_input < f.num_inputs := by
      have h2 := relCount_le_length (irUnwind st0 f.end_input fc) f.end_input
      rw [irUnwind_length, hst] at h2
      omega
    by_cases hb : (irScan f fc (irUnwind st0 f.end_input fc)).2 = true
    · rw [if_pos hb]
      left
      rfl
    · rw [if_neg hb]
      right
      refine ⟨rfl, ?_⟩
      exact irScanAux_false_count f (f.end_input - fc) fc _ hle (Bool.eq_false_iff.mpr hb)

/-- Witness for C9: the very first `input_relevance` call of the (2,2)
search (all-zero table, fresh state) exhausts its scan and returns (3,0). -/
theorem C9_ir_exhausted_returns_last_place_witness :
    ([4, 4] : List Nat).length = (Func.init 2 2).num_inputs ∧
    ((irAnalyze (Func.init 2 2) [4, 4] 0).2 = ⟨(Func.init 2 2).end_input, 0⟩ ∨
      ((irAnalyze (Func.init 2 2) [4, 4] 0).2 = ⟨(Func.init 2 2).end_input - 1, 0⟩ ∧
        relCount (irAnalyze (Func.init 2 2) [4, 4] 0).1 (Func.init 2 2).end_input <
          (Func.init 2 2).num_inputs)) :=
  ⟨by decide, C9_ir_exhausted_returns_last_place (Func.init 2 2) [4, 4] 0 (by decide)⟩

/-- C1: the pruning search does not emit the same set of functions as the
brute-force enumeration over the spec's three properties.  At
`(num_inputs, num_outputs) = (2, 2)` the brute force yields the 3 functions
of the reference table, while `print_remaining` emits none at all. -/
theorem C1_search_disagrees_with_brute_force :
    searchAll 2 2 = [] ∧
      bruteForceSpec 2 2 = [[0, 2, 1, 0], [0, 2, 1, 3], [0, 2, 2, 3]] ∧
      (bruteForceSpec 2 2).length = 3 ∧
      searchAll 2 2 ≠ bruteForceSpec 2 2 ∧
      searchAll 3 3 = [[0, 4, 4, 5, 4, 6, 4, 4]] := by
  refine ⟨by rfl, by rfl, by rfl, by decide, by rfl⟩

/-- C3: the skip target returned by `output_ordered::analyze` is not a sound
underestimate.  The first five conjuncts replay the exact analyzer call
history of the (2,2) search up to its 5th driver step, so the final call
(on `f = [0,1,1,0]` with state `first_ones = [1]` and `first_changed = 2`,
which correctly reports the most significant index changed by the previous
`advance`) satisfies the claim's precondition; it returns the target
`(2, 1)`.  Yet `[0,1,0,2]` — which agrees with `f` on every digit before
place 2 and on bit 1 of digit 2, i.e. on every position up to and including
the target, differing only strictly after it — satisfies the analyzer's own
property (a fresh scan returns the satisfied sentinel).  Moreover the jump
`advance([0,1,1,0], (2,1)) = [0,1,3,0]` also skips over `[0,1,2,0]`
(strictly between the two in mixed-radix order), which satisfies the
analyzer's property as well, so the pruning also drops satisfying tables
lying strictly ahead of the current one. -/
theorem C3_oo_skip_target_unsound :
    ooAnalyze ⟨2, 2, [0, 0, 0, 0]⟩ [] 0 = ([], some ⟨1, 0⟩) ∧
    ooAnalyze ⟨2, 2, [0, 1, 0, 0]⟩ [] 1 = ([1], some ⟨3, 1⟩) ∧
    ooAnalyze ⟨2, 2, [0, 1, 0, 2]⟩ [1] 3 = ([3, 1], some ⟨4, 0⟩) ∧
    ooAnalyze ⟨2, 2, [0, 1, 0, 3]⟩ [3, 1] 3 = ([1], some ⟨3, 1⟩) ∧
    ooAnalyze ⟨2, 2, [0, 1, 1, 0]⟩ [1] 2 = ([1], some ⟨2, 1⟩) ∧
    (ooAnalyze ⟨2, 2, [0, 1, 0, 2]⟩ [] 0).2 = some ⟨4, 0⟩ ∧
    ([0, 1, 0, 2] : List Nat).take 2 = ([0, 1, 1, 0] : List Nat).take 2 ∧
    (0 : Nat) / 2 ^ 1 = (1 : Nat) / 2 ^ 1 ∧
    (Func.mk 2 2 [0, 1, 1, 0]).advance ⟨2, 1⟩ = (Func.mk 2 2 [0, 1, 3, 0], 2) ∧
    (ooAnalyze ⟨2, 2, [0, 1, 2, 0]⟩ [] 0).2 = some ⟨4, 0⟩ ∧
    mval 4 [0, 1, 1, 0] < mval 4 [0, 1, 2, 0] ∧
    mval 4 [0, 1, 2, 0] < mval 4 [0, 1, 3, 0] := by
  decide

/-- C4: `image[0] = 0` after construction, `advance` never modifies
`image[0]` (for any `bit_address` argument), and consequently every table
emitted by the search maps the all-zero input to the all-zero output. -/
theorem C4_image_zero_invariant :
    (∀ n m, (Func.init n m).image.getD 0 0 = 0) ∧
    (∀ (f : Func) (a : BitAddress),
      (f.advance a).1.image.getD 0 0 = f.image.getD 0 0) ∧
    (∀ n m fuel img, img ∈ search n m fuel → img.getD 0 0 = 0) := by
  refine ⟨?_, advance_getD_zero, ?_⟩
  · intro n m
    exact getD_replicate_zero _ _
  · intro n m fuel img hmem
    simp only [search] at hmem
    split at hmem
    · refine searchLoop_getD_zero fuel _ 0 ?_ img hmem
      exact getD_replicate_zero _ _
    · simp at hmem

/-- Witness for C4's membership clause: the first function emitted by the
(2,1) search maps input 0 to output 0. -/
theorem C4_image_zero_invariant_witness :
    [0, 0, 0, 1] ∈ search 2 1 257 ∧ ([0, 0, 0, 1] : List Nat).getD 0 0 = 0 :=
  ⟨by decide, C4_image_zero_invariant.2.2 2 1 257 [0, 0, 0, 1] (by decide)⟩

/-- C6: `metastability_containing::analyze` is the satisfied sentinel
exactly when no scanned index has an input pin whose clearing changes the
output by more than one bit; on the first violating index `i` it returns
`(i, b)` where `b` is the largest `ctz(change)` over the offending pins
(equivalently `b + 1` is the largest `ctz(change) + 1`), all earlier
scanned indices being violation-free; and, scanning from 0, the satisfied
answer holds iff for every input pattern and every input pin, flipping that
pin changes the output by at most one bit. -/
theorem C6_msc_analyzer_characterization (f : Func) (fc : Nat) :
    ((mscAnalyze f fc).input_pattern = f.end_input ↔
      ∀ i, fc ≤ i → i < f.end_input → ∀ p, p < f.num_inputs →
        is_pot_or_zero (mscChange f i p) = true) ∧
    ((mscAnalyze f fc).input_pattern ≠ f.end_input →
      fc ≤ (mscAnalyze f fc).input_pattern ∧
      (mscAnalyze f fc).input_pattern < f.end_input ∧
      (∀ j, fc ≤ j → j < (mscAnalyze f fc).input_pattern →
        ∀ p, p < f.num_inputs → is_pot_or_zero (mscChange f j p) = true) ∧
      (∃ p, p < f.num_inputs ∧
        is_pot_or_zero (mscChange f (mscAnalyze f fc).input_pattern p) = false ∧
        (mscAnalyze f fc).bit = ctz (mscChange f (mscAnalyze f fc).input_pattern p)) ∧
      (∀ q, q < f.num_inputs →
        is_pot_or_zero (mscChange f (mscAnalyze f fc).input_pattern q) = false →
        ctz (mscChange f (mscAnalyze f fc).input_pattern q) ≤ (mscAnalyze f fc).bit)) ∧
    ((mscAnalyze f 0).input_pattern = f.end_input ↔
      ∀ x, x < f.end_input → ∀ p, p < f.num_inputs →
        is_pot_or_zero (f.image.getD x 0 ^^^ f.image.getD (flipPin x p) 0) = true) := by
  refine ⟨?_, ?_, mscAnalyze_zero_iff_flip f⟩
  · rw [mscAnalyze_sentinel_iff]
    constructor
    · intro h i h1 h2 p hp
      exact (mscMaxTz_eq_zero_iff f i).mp (h i h1 h2) p hp
    · intro h i h1 h2
      exact (mscMaxTz_eq_zero_iff f i).mpr (h i h1 h2)
  · intro hne
    obtain ⟨h1, h2, h3, h4, h5⟩ := mscAnalyze_nonsentinel f fc hne
    refine ⟨h1, h2, ?_, ?_, ?_⟩
    · intro j hj1 hj2 p hp
      exact (mscMaxTz_eq_zero_iff f j).mp (h4 j hj1 hj2) p hp
    · obtain ⟨p, hp, hpot, heq, hmax⟩ := mscMaxTz_max_spec f _ h3
      refine ⟨p, hp, hpot, ?_⟩
      rw [h5, heq]
      omega
    · intro q hq hqpot
      obtain ⟨p, hp, hpot, heq, hmax⟩ := mscMaxTz_max_spec f _ h3
      have h6 := hmax q hq hqpot
      rw [h5]
      omega

/-- Witness for C6's non-sentinel clause at the call
`mscAnalyze([0,1,0,3], 3) = (3, 0)` of the (2,2) search. -/
theorem C6_msc_analyzer_characterization_witness :
    (mscAnalyze (Func.mk 2 2 [0, 1, 0, 3]) 3).input_pattern ≠
        (Func.mk 2 2 [0, 1, 0, 3]).end_input ∧
    3 ≤ (mscAnalyze (Func.mk 2 2 [0, 1, 0, 3]) 3).input_pattern ∧
    (mscAnalyze (Func.mk 2 2 [0, 1, 0, 3]) 3).input_pattern <
      (Func.mk 2 2 [0, 1, 0, 3]).end_input :=
  ⟨by decide,
    ((C6_msc_analyzer_characterization (Func.mk 2 2 [0, 1, 0, 3]) 3).2.1
      (by decide)).1,
    ((C6_msc_analyzer_characterization (Func.mk 2 2 [0, 1, 0, 3]) 3).2.1
      (by decide)).2.1⟩

/-- C7: the (3,2) search emits the function `[0,0,0,0,1,0,0,2]`, whose
output pin 0 first activates at input pattern 4 while pin 1 first
activates only at 7 — pin 0's first activation is strictly earlier than
pin 1's, contradicting property (c) (the documented reverse activation
order); accordingly the function fails the spec's output-ordering
predicate. -/
theorem C7_emitted_function_violates_output_order :
    (searchAll 3 2).contains [0, 0, 0, 0, 1, 0, 0, 2] = true ∧
    firstOne [0, 0, 0, 0, 1, 0, 0, 2] 0 = some 4 ∧
    firstOne [0, 0, 0, 0, 1, 0, 0, 2] 1 = some 7 ∧
    specOrdered 2 [0, 0, 0, 0, 1, 0, 0, 2] = false := by
  refine ⟨by rfl, by rfl, by rfl, by rfl⟩

/-- C8: in every driver run (`searchOOsafe`, any widths, any fuel), no
`output_ordered::analyze` call of the run ever reaches the `assert(false)`
fallthrough after its scan loop; and, at the level of a single call,
whenever the scan starts out with the runway invariant the source asserts
at its loop head — after unwinding, either the state is already complete or
`can_fit(num_outputs - |first_ones|, end_input - first_changed)` holds,
which the driver's static `can_fit(num_outputs, end_input)` check
establishes for the initial call — the analyzer always returns a
proposal. -/
theorem C8_oo_fallthrough_unreachable :
    (∀ n m fuel : Nat, searchOOsafe n m fuel = true) ∧
    (∀ (f : Func) (st0 : List Nat) (fc : Nat),
      ((ooUnwind fc st0).length = f.num_outputs ∨
        ((ooUnwind fc st0).length < f.num_outputs ∧
          can_fit (f.num_outputs - (ooUnwind fc st0).length) (f.end_input - fc) = true)) →
      (ooAnalyze f st0 fc).2.isSome = true) :=
  ⟨searchOOsafe_eq_true, ooAnalyze_isSome⟩

/-- Witness for C8 at the very first `output_ordered` call of the (2,2)
search (fresh state, `first_changed = 0`), whose precondition is exactly
the driver's static feasibility check `can_fit(2, 4)`. -/
theorem C8_oo_fallthrough_unreachable_witness :
    ((ooUnwind 0 []).length < (Func.init 2 2).num_outputs ∧
      can_fit ((Func.init 2 2).num_outputs - (ooUnwind 0 []).length)
        ((Func.init 2 2).end_input - 0) = true) ∧
    (ooAnalyze (Func.init 2 2) [] 0).2.isSome = true :=
  ⟨⟨by decide, by decide⟩,
    C8_oo_fallthrough_unreachable.2 (Func.init 2 2) [] 0
      (Or.inr ⟨by decide, by decide⟩)⟩

/-- C10 counterexample: the width argument 0 is accepted by the argument
validation (`parse_arg 0` succeeds rather than failing like the
out-of-range values), so the accepted domain of each width argument is not
`[1, 20]`; the value 0 is stopped only later, by the aborting `assert` in
the `function` constructor. -/
theorem C10_zero_accepted_counterexample :
    parse_arg 0 = Except.ok 0 ∧ mkFunc 0 3 = none ∧ mkFunc 3 0 = none :=
  ⟨rfl, rfl, rfl⟩

/-- C10 (amended): `parse_arg` accepts exactly the values in `[0, 20]`,
rejecting larger ones as `OutOfRange` — a failure condition distinct from
the `InvalidArgument` raised for non-numeric input — while the value 0
passes argument validation and is rejected only by the constructor's
`assert`, so the domain on which the program constructs a search without a
fatal assertion is exactly `[1, 20]` for each width. -/
theorem C10_argument_domains :
    (∀ v, parse_arg v = Except.ok v ↔ v ≤ MAX_BITS) ∧
    (∀ v, parse_arg v = Except.error ArgError.out_of_range ↔ MAX_BITS < v) ∧
    parse_main_arg none = Except.error ArgError.invalid_argument ∧
    (∀ n m, (mkFunc n m).isSome = true ↔ 1 ≤ n ∧ 1 ≤ m) := by
  refine ⟨?_, ?_, rfl, ?_⟩
  · intro v
    unfold parse_arg
    by_cases h : MAX_BITS < v
    · rw [if_pos h]
      constructor
      · intro hc
        simp at hc
      · intro hc
        exact absurd h (by omega)
    · rw [if_neg h]
      constructor
      · intro _
        omega
      · intro _
        rfl
  · intro v
    unfold parse_arg
    by_cases h : MAX_BITS < v
    · rw [if_pos h]
      constructor
      · intro _
        exact h
      · intro _
        rfl
    · rw [if_neg h]
      constructor
      · intro hc
        simp at hc
      · intro hc
        exact absurd hc h
  · intro n m
    unfold mkFunc
    by_cases h : 0 < n ∧ 0 < m
    · rw [if_pos h]
      constructor
      · intro _
        omega
      · intro _
        rfl
    · rw [if_neg h]
      constructor
      · intro hc
        simp at hc
      · intro hc
        exact absurd (by omega : 0 < n ∧ 0 < m) h

end MCF
